import Mathlib

/-!
# Byte streams of the netlist library (`plib/pstream.h`, `plib/pstream.c`)

A shallow embedding of the stream classes: the flag word of `pstream`, the
growable output memory stream `pomemstream`, the input memory stream
`pimemstream`, the line reader of `pistream`, and the file streams
`pifilestream` and `pofilestream` over the calls of `<cstdio>`.

Conventions of the embedding.

* `pos_type` is `long unsigned`: a natural number below `2 ^ 64`, every
  addition and multiplication on it is reduced modulo `POS_MOD`.
  `unsigned` is a natural number below `2 ^ 32` (`UINT_MOD`).
* A memory block is a `List UInt8`; a null pointer is `none`.
* A call either returns (`Outcome.ok`), throws a `pexception`
  (`Outcome.throws`), never leaves a loop (`Outcome.diverges`), or has
  undefined behaviour (`Outcome.undefined`): it hands a null pointer to
  `memcpy`, or the copy of a growing `pomemstream::vseek` reads past the end
  of the old block.
* The file streams take the C library as a parameter (`CLib`), handles
  included: a null `FILE *` is `none`, and what a call does with it is up to
  the library. `disk` is a reference library over one file that records every
  call made.
-/

namespace PStream

/-! ## Machine integers and outcomes -/

/-- Number of values of `pos_type` (`typedef long unsigned pos_type`). -/
def POS_MOD : Nat := 2 ^ 64

/-- Number of values of `unsigned`. -/
def UINT_MOD : Nat := 2 ^ 32

/-- How a member function call ends. -/
inductive Outcome (σ : Type) where
  /-- The call returns, leaving the object in state `s`. -/
  | ok (s : σ) : Outcome σ
  /-- The call throws `pexception(msg)` with the object in state `s`. -/
  | throws (msg : String) (s : σ) : Outcome σ
  /-- The call never returns: a `while` loop never exits. -/
  | diverges : Outcome σ
  /-- The call has undefined behaviour: it passes a null pointer to `memcpy`,
  or its `memcpy` reads more bytes than the source block has. -/
  | undefined : Outcome σ
  deriving DecidableEq, Repr

/-! ## `pstream`: the flag word -/

def FLAG_EOF : Nat := 0x01
def FLAG_ERROR : Nat := 0x02
def FLAG_SEEKABLE : Nat := 0x04
def FLAG_CLOSED : Nat := 0x08

/-- Embeds `m_flags |= flag`. -/
def set_flag (m_flags flag : Nat) : Nat := m_flags ||| flag

/-- Embeds `m_flags &= ~flag`, the complement taken on 32 bits. -/
def clear_flag (m_flags flag : Nat) : Nat := m_flags &&& ((UINT_MOD - 1) ^^^ flag)

/-- Embeds `pstream::bad`. -/
def bad (m_flags : Nat) : Bool := (m_flags &&& FLAG_ERROR) != 0

/-- Embeds `pstream::seekable`. -/
def seekable (m_flags : Nat) : Bool := (m_flags &&& FLAG_SEEKABLE) != 0

/-- Embeds `pstream::closed`. -/
def closed (m_flags : Nat) : Bool := (m_flags &&& FLAG_CLOSED) != 0

/-- Embeds `pistream::eof`. -/
def eof (m_flags : Nat) : Bool := ((m_flags &&& FLAG_EOF) != 0) || bad m_flags

/-- Embeds `pstream::check_seekable`: the message of the exception it throws, if any. -/
def check_seekable (m_flags : Nat) : Except String Unit :=
  if (m_flags &&& FLAG_SEEKABLE) = 0 then .error "stream is not seekable" else .ok ()

/-- Embeds `pstream::seek`, for a stream class with state `σ`, flag word `flags` and
concrete `vseek`. -/
def pstream.seek {σ : Type} (flags : σ → Nat) (vseek : σ → Nat → Outcome σ)
    (s : σ) (n : Nat) : Outcome σ :=
  match check_seekable (flags s) with
  | .error msg => .throws msg s
  | .ok _ => vseek s n

/-! ## Memory blocks -/

/-- Embeds `memcpy(dst + off, src, n)` on blocks: byte `i` of `src`, for `i < n`, is
stored at `dst[off + i]`. Bytes that lie outside either block are not
transferred, so the result has the length of `dst`; a caller whose count can
exceed the source block tests the count before it copies
(`pomemstream.vseek`). -/
def memcpy : (dst : List UInt8) → (off : Nat) → (src : List UInt8) → (n : Nat) → List UInt8
  | [], _, _, _ => []
  | d :: ds, off + 1, src, n => d :: memcpy ds off src n
  | _ :: ds, 0, c :: cs, n + 1 => c :: memcpy ds 0 cs n
  | d :: ds, 0, [], _ => d :: ds
  | d :: ds, 0, _ :: _, 0 => d :: ds

/-! ## `pomemstream` -/

/-- Data members of `pomemstream`, with the flag word of its `pstream` base. -/
structure pomemstream where
  m_flags : Nat
  m_pos : Nat
  m_capacity : Nat
  m_size : Nat
  m_mem : Option (List UInt8)
  deriving DecidableEq, Repr

/-- The loop `while (target >= m_capacity) m_capacity *= 2;` on 64-bit
unsigned integers, run for at most `fuel` tests of the condition. The result
is the capacity on exit, `none` when the loop has not exited. -/
def grow_capacity : (fuel : Nat) → (target m_capacity : Nat) → Option Nat
  | 0, _, _ => none
  | fuel + 1, target, m_capacity =>
    if target ≥ m_capacity then grow_capacity fuel target (m_capacity * 2 % POS_MOD)
    else some m_capacity

/-- Tests of the loop condition after which `grow_capacity` has either exited
or reached capacity `0`, where it stays. -/
def GROW_FUEL : Nat := 65

/-- Embeds `pomemstream::pomemstream()`; `palloc_array` is the allocator of
`palloc.h`, giving a block of the requested length or a null pointer. -/
def pomemstream.new (palloc_array : Nat → Option (List UInt8)) : pomemstream :=
  { m_flags := FLAG_SEEKABLE, m_pos := 0, m_capacity := 1024, m_size := 0,
    m_mem := palloc_array 1024 }

/-- Embeds `pomemstream::vwrite(buf, n)`. -/
def pomemstream.vwrite (palloc_array : Nat → Option (List UInt8)) (s : pomemstream)
    (buf : List UInt8) (n : Nat) : Outcome pomemstream :=
  let store (cap : Nat) (mem : List UInt8) : pomemstream :=
    let pos := (s.m_pos + n) % POS_MOD
    { m_flags := s.m_flags, m_pos := pos, m_capacity := cap, m_size := max pos s.m_size,
      m_mem := some (memcpy mem s.m_pos buf n) }
  if (s.m_pos + n) % POS_MOD ≥ s.m_capacity then
    match grow_capacity GROW_FUEL ((s.m_pos + n) % POS_MOD) s.m_capacity with
    | none => .diverges
    | some cap =>
      match palloc_array cap with
      | none =>
        .ok { m_flags := set_flag s.m_flags FLAG_ERROR, m_pos := s.m_pos, m_capacity := cap,
              m_size := s.m_size, m_mem := none }
      | some block =>
        match s.m_mem with
        | none => .undefined
        | some o => .ok (store cap (memcpy block 0 o s.m_pos))
  else
    match s.m_mem with
    | none => .undefined
    | some mem => .ok (store s.m_capacity mem)

/-- Embeds `pomemstream::vseek(n)`. In the growing branch `m_pos = n` has been
assigned before `memcpy(m_mem, o, m_pos)` runs, so the copy reads `n` bytes
from the old block `o`: when `o` has fewer than `n` bytes the call reads past
the end of `o`, which is undefined behaviour. -/
def pomemstream.vseek (palloc_array : Nat → Option (List UInt8)) (s : pomemstream)
    (n : Nat) : Outcome pomemstream :=
  let size := max n s.m_size
  if size ≥ s.m_capacity then
    match grow_capacity GROW_FUEL size s.m_capacity with
    | none => .diverges
    | some cap =>
      match palloc_array cap with
      | none =>
        .ok { m_flags := set_flag s.m_flags FLAG_ERROR, m_pos := n, m_capacity := cap,
              m_size := size, m_mem := none }
      | some block =>
        match s.m_mem with
        | none => .undefined
        | some o =>
          if n ≤ o.length then
            .ok { m_flags := s.m_flags, m_pos := n, m_capacity := cap, m_size := size,
                  m_mem := some (memcpy block 0 o n) }
          else .undefined
  else
    .ok { m_flags := s.m_flags, m_pos := n, m_capacity := s.m_capacity, m_size := size,
          m_mem := s.m_mem }

/-- Embeds `pomemstream::vtell`. -/
def pomemstream.vtell (s : pomemstream) : Nat := s.m_pos

/-- Embeds `postream::write(const void *buf, unsigned n)`. -/
def pomemstream.write (palloc_array : Nat → Option (List UInt8)) (s : pomemstream)
    (buf : List UInt8) (n : Nat) : Outcome pomemstream :=
  s.vwrite palloc_array buf n

/-- Embeds `pstream::seek` on a `pomemstream`. -/
def pomemstream.seek (palloc_array : Nat → Option (List UInt8)) (s : pomemstream)
    (n : Nat) : Outcome pomemstream :=
  pstream.seek pomemstream.m_flags (pomemstream.vseek palloc_array) s n

/-- Embeds `pstream::tell` on a `pomemstream`. -/
def pomemstream.tell (s : pomemstream) : Nat := s.vtell

/-- Embeds `unsigned pomemstream::size() const`: `m_size` converted to `unsigned`. -/
def pomemstream.size (s : pomemstream) : Nat := s.m_size % UINT_MOD

/-- Embeds `pomemstream::memory`. -/
def pomemstream.memory (s : pomemstream) : Option (List UInt8) := s.m_mem

/-- A public call on a `pomemstream`: `write(buf, n)` with `buf` a block of
`n` bytes, or `seek(n)`. -/
inductive Op where
  | write (buf : List UInt8) : Op
  | seek (n : Nat) : Op
  deriving DecidableEq, Repr

/-- The argument of the call has the type of the parameter: a write length is
an `unsigned`, a seek offset a `pos_type`. -/
def Op.typed : Op → Prop
  | .write buf => buf.length < UINT_MOD
  | .seek n => n < POS_MOD

instance (op : Op) : Decidable op.typed := by
  cases op <;> unfold Op.typed <;> infer_instance

/-- One public call. -/
def pomemstream.apply (palloc_array : Nat → Option (List UInt8)) (s : pomemstream) :
    Op → Outcome pomemstream
  | .write buf => s.write palloc_array buf buf.length
  | .seek n => s.seek palloc_array n

/-- A sequence of public calls, stopping at the first that does not return. -/
def pomemstream.run (palloc_array : Nat → Option (List UInt8)) :
    List Op → pomemstream → Outcome pomemstream
  | [], s => .ok s
  | op :: ops, s =>
    match s.apply palloc_array op with
    | .ok s1 => pomemstream.run palloc_array ops s1
    | other => other

/-- An allocator that never fails and hands out zeroed blocks. -/
def palloc_zero (n : Nat) : Option (List UInt8) := some (List.replicate n 0)

/-! ## `pimemstream` -/

/-- Data members of `pimemstream`, with the flag word of its `pstream` base.
`m_mem` is the block the stream points into. -/
structure pimemstream where
  m_flags : Nat
  m_pos : Nat
  m_len : Nat
  m_mem : List UInt8
  deriving DecidableEq, Repr

/-- Embeds `pimemstream::pimemstream(const void *mem, const pos_type len)`. -/
def pimemstream.new (mem : List UInt8) (len : Nat) : pimemstream :=
  { m_flags := FLAG_SEEKABLE, m_pos := 0, m_len := len, m_mem := mem }

/-- Embeds `pimemstream::pimemstream(const pomemstream &ostrm)`; a null `memory()`
is a block without a readable byte. -/
def pimemstream.of_pomemstream (ostrm : pomemstream) : pimemstream :=
  { m_flags := FLAG_SEEKABLE, m_pos := 0, m_len := ostrm.size,
    m_mem := ostrm.memory.getD [] }

/-- Embeds `pimemstream::vread(buf, n)`: the returned count, the caller's buffer
after the call, and the stream after the call. -/
def pimemstream.vread (s : pimemstream) (buf : List UInt8) (n : Nat) :
    Nat × List UInt8 × pimemstream :=
  let ret :=
    (if (s.m_pos + n) % POS_MOD ≤ s.m_len then n
     else (s.m_len + POS_MOD - s.m_pos) % POS_MOD) % UINT_MOD
  let buf1 := if ret > 0 then memcpy buf 0 (s.m_mem.drop s.m_pos) ret else buf
  let pos1 := if ret > 0 then (s.m_pos + ret) % POS_MOD else s.m_pos
  let flags1 := if ret < n then set_flag s.m_flags FLAG_EOF else s.m_flags
  (ret, buf1, { m_flags := flags1, m_pos := pos1, m_len := s.m_len, m_mem := s.m_mem })

/-- Embeds `pimemstream::vseek(n)`; it returns on every argument. -/
def pimemstream.vseek (s : pimemstream) (n : Nat) : Outcome pimemstream :=
  .ok { m_flags := clear_flag s.m_flags FLAG_EOF,
        m_pos := if n ≥ s.m_len then s.m_len else n,
        m_len := s.m_len, m_mem := s.m_mem }

/-- Embeds `pimemstream::vtell`. -/
def pimemstream.vtell (s : pimemstream) : Nat := s.m_pos

/-- Embeds `pistream::read(void *buf, unsigned n)` on a `pimemstream`. -/
def pimemstream.read (s : pimemstream) (buf : List UInt8) (n : Nat) :
    Nat × List UInt8 × pimemstream :=
  s.vread buf n

/-- Embeds `pstream::seek` on a `pimemstream`. -/
def pimemstream.seek (s : pimemstream) (n : Nat) : Outcome pimemstream :=
  pstream.seek pimemstream.m_flags pimemstream.vseek s n

/-- Embeds `pstream::tell` on a `pimemstream`. -/
def pimemstream.tell (s : pimemstream) : Nat := s.vtell

/-- Embeds `pistream::eof` on a `pimemstream`. -/
def pimemstream.eof (s : pimemstream) : Bool := PStream.eof s.m_flags

/-! ## `pistream`: single bytes and lines -/

/-- Embeds `pistream::read(UINT8 &c)`, for a stream class with state `σ` and concrete
`vread`: whether one byte was read, the variable `c` after the call, and the
stream after the call. -/
def pistream.read_byte {σ : Type} (vread : σ → List UInt8 → Nat → Nat × List UInt8 × σ)
    (s : σ) (c : UInt8) : Bool × UInt8 × σ :=
  let r := vread s [c] 1
  (r.1 == 1, r.2.1.headD c, r.2.2)

/-- Modelled from the spec: `pstringbuffer` and `pstring` of `pstring.h`, which
is not among the sources. The line content is the accumulated byte sequence;
`buf += c` appends the byte `c` and `line = buf` copies the sequence.

The loop `while (true)` of `pistream::readline`, entered with the byte `c`
read last and the bytes `buf` accumulated so far, run for at most `fuel`
iterations: the line and the stream on exit, `none` when the loop has not
exited. -/
def pistream.readline_loop {σ : Type} (vread : σ → List UInt8 → Nat → Nat × List UInt8 × σ) :
    (fuel : Nat) → σ → UInt8 → List UInt8 → Option (List UInt8 × σ)
  | 0, _, _, _ => none
  | fuel + 1, s, c, buf =>
    if c = 10 then some (buf, s)
    else
      let buf1 := if c ≠ 13 then buf ++ [c] else buf
      match pistream.read_byte vread s c with
      | (false, _, s1) => some (buf1, s1)
      | (true, c1, s1) => pistream.readline_loop vread fuel s1 c1 buf1

/-- Embeds `pistream::readline(line)`: the returned flag, the string `line` after the
call, and the stream after the call; `none` when `fuel` iterations of the loop
were not enough. -/
def pistream.readline {σ : Type} (vread : σ → List UInt8 → Nat → Nat × List UInt8 × σ)
    (fuel : Nat) (s : σ) : Option (Bool × List UInt8 × σ) :=
  match pistream.read_byte vread s 0 with
  | (false, _, s1) => some (false, [], s1)
  | (true, c, s1) =>
    match pistream.readline_loop vread fuel s1 c [] with
    | none => none
    | some (buf, s2) => some (true, buf, s2)

/-- Embeds `readline` on a `pimemstream`. -/
def pimemstream.readline (fuel : Nat) (s : pimemstream) :
    Option (Bool × List UInt8 × pimemstream) :=
  pistream.readline pimemstream.vread fuel s

/-- Successive `readline` calls on a `pimemstream`, `k` of them: the flag and
the line of each call, in order. -/
def pimemstream.readlines (fuel : Nat) : (k : Nat) → pimemstream →
    Option (List (Bool × List UInt8))
  | 0, _ => some []
  | k + 1, s =>
    match s.readline fuel with
    | none => none
    | some (b, line, s1) =>
      match pimemstream.readlines fuel k s1 with
      | none => none
      | some rest => some ((b, line) :: rest)

/-- Single-byte reads on a `pimemstream` repeated until one fails, at most
`fuel` of them: the bytes read, each with the value of `eof()` after its read,
and the stream after the failed read; `none` when no read has failed yet. -/
def pimemstream.read_all : (fuel : Nat) → pimemstream →
    Option (List (UInt8 × Bool) × pimemstream)
  | 0, _ => none
  | fuel + 1, s =>
    match pistream.read_byte pimemstream.vread s 0 with
    | (false, _, s1) => some ([], s1)
    | (true, c, s1) =>
      match pimemstream.read_all fuel s1 with
      | none => none
      | some (rest, s2) => some ((c, s1.eof) :: rest, s2)

/-! ## Text made of lines -/

/-- A line ending accepted by `readline`: `LF` or `CR LF`. -/
inductive Ending where
  | lf : Ending
  | crlf : Ending
  deriving DecidableEq, Repr

/-- The bytes of a line ending. -/
def Ending.bytes : Ending → List UInt8
  | .lf => [10]
  | .crlf => [13, 10]

/-- The byte sequence of a list of lines, each followed by its ending. -/
def encode_lines : List (List UInt8 × Ending) → List UInt8
  | [] => []
  | (l, e) :: ls => l ++ e.bytes ++ encode_lines ls

/-- The lines `readline` is to deliver for `lines` followed by an unterminated
`last` line, which counts only when it is not empty. -/
def expected_lines (lines : List (List UInt8 × Ending)) (last : List UInt8) :
    List (List UInt8) :=
  lines.map (fun l => l.1) ++ (if last = [] then [] else [last])

/-! ## Reference behaviour of an output memory stream -/

/-- The allocator never returns a null pointer: every request is answered by a
block of the requested length. -/
def never_fails (palloc_array : Nat → Option (List UInt8)) : Prop :=
  ∀ n, ∃ block, palloc_array n = some block ∧ block.length = n

/-- What one call does to an ideal byte store: the position after the call and,
for every offset, the byte written there last, if any. -/
def Op.effect (st : Nat × (Nat → Option UInt8)) : Op → Nat × (Nat → Option UInt8)
  | .write buf =>
    (st.1 + buf.length,
     fun i => if st.1 ≤ i ∧ i < st.1 + buf.length then buf[i - st.1]? else st.2 i)
  | .seek n => (n, st.2)

/-- The calls, made on a stream at position `p` with size `size`, stay inside
what the stream can serve: every write ends below `2 ^ 63`, where the doubling
of the capacity still exits, and every seek goes to an offset that is at most
the size reached so far or at most 1024, the length of the first block, so
that the copy of a growing seek stays inside the old block. -/
def stays_inside : List Op → Nat → Nat → Prop
  | [], _, _ => True
  | .write buf :: ops, p, size =>
    p + buf.length < 2 ^ 63 ∧
      stays_inside ops (p + buf.length) (max (p + buf.length) size)
  | .seek n :: ops, _, size => n ≤ max size 1024 ∧ stays_inside ops n (max n size)

/-- The capacity is the initial 1024 doubled `k` times, and is a `pos_type`. -/
def doubled_capacity (c : Nat) : Prop := ∃ k, k ≤ 53 ∧ c = 1024 * 2 ^ k

/-- What holds of a `pomemstream` reached from a fresh one while no allocation
fails: `m_pos <= m_size < m_capacity`, the capacity is `1024 * 2 ^ k`, the
stream is seekable, and `m_mem` points to a block of `m_capacity` bytes. -/
def pomemstream.sound (s : pomemstream) : Prop :=
  s.m_pos ≤ s.m_size ∧ s.m_size < s.m_capacity ∧ doubled_capacity s.m_capacity ∧
  seekable s.m_flags = true ∧ ∃ mem, s.m_mem = some mem ∧ mem.length = s.m_capacity

/-- The block of the stream holds every byte of the ideal store `m`, all of
them below `m_size`. -/
def pomemstream.holds (s : pomemstream) (m : Nat → Option UInt8) : Prop :=
  ∀ i b, m i = some b → i < s.m_size ∧ ∃ mem, s.m_mem = some mem ∧ mem[i]? = some b

/-! ## The C library behind the file streams -/

/-- Value of the macro `SEEK_SET` of `<cstdio>`. -/
def SEEK_SET : Int := 0

/-- Value of the macro `SEEK_CUR` of `<cstdio>`. -/
def SEEK_CUR : Int := 1

/-- Value of the macro `SEEK_END` of `<cstdio>`. -/
def SEEK_END : Int := 2

/-- Conversion of a `pos_type` to `int`, as happens to an argument passed for
the `int whence` parameter of `fseek`: the low 32 bits, read as signed. -/
def int_of_pos (n : Nat) : Int :=
  if n % UINT_MOD < 2 ^ 31 then ((n % UINT_MOD : Nat) : Int)
  else ((n % UINT_MOD : Nat) : Int) - ((UINT_MOD : Nat) : Int)

/-- The calls of `<cstdio>` the file streams make, on handles `H` (a `FILE *`
that is not null is `some h`) and states `W` of the operating system.
`fread` and `fwrite` are called with element size 1; `fread` gives the count,
the caller's buffer after the call and the new state. -/
structure CLib (H W : Type) where
  fopen : String → String → W → Option H × W
  fclose : Option H → W → W
  fread : Option H → List UInt8 → Nat → W → Nat × List UInt8 × W
  fwrite : Option H → List UInt8 → Nat → W → Nat × W
  fseek : Option H → Int → Int → W → Int × W
  ftell : Option H → W → Int
  feof : Option H → W → Bool
  ferror : Option H → W → Bool

/-! ## `pifilestream` -/

/-- Data members of `pifilestream`, with the flag word of its `pstream` base. -/
structure pifilestream (H : Type) where
  m_flags : Nat
  m_file : Option H
  m_pos : Nat
  deriving DecidableEq, Repr

/-- Embeds `pifilestream::pifilestream(fname)`: the stream and the state of the
operating system after construction. -/
def pifilestream.new {H W : Type} (os : CLib H W) (fname : String) (w : W) :
    pifilestream H × W :=
  match os.fopen fname "rb" w with
  | (none, w1) =>
    (⟨set_flag (set_flag (set_flag 0 FLAG_ERROR) FLAG_EOF) FLAG_CLOSED, none, 0⟩, w1)
  | (some h, w1) =>
    if os.ftell (some h) w1 ≥ 0 then
      match os.fseek (some h) 0 SEEK_SET w1 with
      | (r, w2) => (⟨if r ≥ 0 then set_flag 0 FLAG_SEEKABLE else 0, some h, 0⟩, w2)
    else (⟨0, some h, 0⟩, w1)

/-- Embeds `pifilestream::close`. -/
def pifilestream.close {H W : Type} (os : CLib H W) (s : pifilestream H) (w : W) :
    pifilestream H × W :=
  (⟨set_flag s.m_flags FLAG_CLOSED, s.m_file, s.m_pos⟩, os.fclose s.m_file w)

/-- Embeds `pifilestream::~pifilestream`: the members and the state of the
operating system when the destructor body has run. -/
def pifilestream.destroy {H W : Type} (os : CLib H W) (s : pifilestream H) (w : W) :
    pifilestream H × W :=
  if closed s.m_flags then (s, w) else s.close os w

/-- Embeds `pifilestream::vread(buf, n)`: the returned count, the caller's
buffer, the stream and the state of the operating system after the call. -/
def pifilestream.vread {H W : Type} (os : CLib H W) (s : pifilestream H)
    (buf : List UInt8) (n : Nat) (w : W) : Nat × List UInt8 × pifilestream H × W :=
  match os.fread s.m_file buf n w with
  | (r, buf1, w1) =>
    let flags1 :=
      if r < n then
        let f := if os.feof s.m_file w1 then set_flag s.m_flags FLAG_EOF else s.m_flags
        if os.ferror s.m_file w1 then set_flag f FLAG_ERROR else f
      else s.m_flags
    (r % UINT_MOD, buf1, ⟨flags1, s.m_file, (s.m_pos + r) % POS_MOD⟩, w1)

/-- Embeds `pifilestream::vseek(n)`, which calls
`fseek((FILE *) m_file, SEEK_SET, n)`. -/
def pifilestream.vseek {H W : Type} (os : CLib H W) (s : pifilestream H) (n : Nat) (w : W) :
    Outcome (pifilestream H × W) :=
  match check_seekable s.m_flags with
  | .error msg => .throws msg (s, w)
  | .ok _ =>
    match os.fseek s.m_file SEEK_SET (int_of_pos n) w with
    | (r, w1) =>
      let flags1 := if r < 0 then set_flag s.m_flags FLAG_ERROR else s.m_flags
      let pos1 := if r < 0 then s.m_pos else n
      let flags2 :=
        if os.feof s.m_file w1 then set_flag flags1 FLAG_EOF else clear_flag flags1 FLAG_EOF
      let flags3 := if os.ferror s.m_file w1 then set_flag flags2 FLAG_ERROR else flags2
      .ok (⟨flags3, s.m_file, pos1⟩, w1)

/-- Embeds `pifilestream::vtell`. -/
def pifilestream.vtell {H W : Type} (os : CLib H W) (s : pifilestream H) (w : W) : Nat :=
  if os.ftell s.m_file w < 0 then s.m_pos else (os.ftell s.m_file w).toNat

/-- Embeds `pistream::read(void *buf, unsigned n)` on a `pifilestream`. -/
def pifilestream.read {H W : Type} (os : CLib H W) (s : pifilestream H)
    (buf : List UInt8) (n : Nat) (w : W) : Nat × List UInt8 × pifilestream H × W :=
  s.vread os buf n w

/-- Embeds `pstream::seek` on a `pifilestream`. -/
def pifilestream.seek {H W : Type} (os : CLib H W) (s : pifilestream H) (n : Nat) (w : W) :
    Outcome (pifilestream H × W) :=
  pstream.seek (fun sw => sw.1.m_flags) (fun sw k => pifilestream.vseek os sw.1 k sw.2) (s, w) n

/-- Embeds `pstream::tell` on a `pifilestream`. -/
def pifilestream.tell {H W : Type} (os : CLib H W) (s : pifilestream H) (w : W) : Nat :=
  s.vtell os w

/-! ## `pofilestream` -/

/-- Data members of `pofilestream`, with the flag word of its `pstream` base. -/
structure pofilestream (H : Type) where
  m_flags : Nat
  m_file : Option H
  m_pos : Nat
  deriving DecidableEq, Repr

/-- Embeds `pofilestream::pofilestream(fname)`: the stream and the state of the
operating system after construction. -/
def pofilestream.new {H W : Type} (os : CLib H W) (fname : String) (w : W) :
    pofilestream H × W :=
  match os.fopen fname "wb" w with
  | (none, w1) => (⟨set_flag (set_flag 0 FLAG_ERROR) FLAG_CLOSED, none, 0⟩, w1)
  | (some h, w1) =>
    if os.ftell (some h) w1 ≥ 0 then
      match os.fseek (some h) 0 SEEK_SET w1 with
      | (r, w2) => (⟨if r ≥ 0 then set_flag 0 FLAG_SEEKABLE else 0, some h, 0⟩, w2)
    else (⟨0, some h, 0⟩, w1)

/-- Embeds `pofilestream::close`. -/
def pofilestream.close {H W : Type} (os : CLib H W) (s : pofilestream H) (w : W) :
    pofilestream H × W :=
  (⟨set_flag s.m_flags FLAG_CLOSED, s.m_file, s.m_pos⟩, os.fclose s.m_file w)

/-- Embeds `pofilestream::~pofilestream`: the members and the state of the
operating system when the destructor body has run. -/
def pofilestream.destroy {H W : Type} (os : CLib H W) (s : pofilestream H) (w : W) :
    pofilestream H × W :=
  if closed s.m_flags then (s, w) else s.close os w

/-- Embeds `pofilestream::vwrite(buf, n)`. -/
def pofilestream.vwrite {H W : Type} (os : CLib H W) (s : pofilestream H)
    (buf : List UInt8) (n : Nat) (w : W) : pofilestream H × W :=
  match os.fwrite s.m_file buf n w with
  | (r, w1) =>
    let flags1 :=
      if r < n then (if os.ferror s.m_file w1 then set_flag s.m_flags FLAG_ERROR else s.m_flags)
      else s.m_flags
    (⟨flags1, s.m_file, (s.m_pos + r) % POS_MOD⟩, w1)

/-- Embeds `pofilestream::vseek(n)`, which calls
`fseek((FILE *) m_file, SEEK_SET, n)`. -/
def pofilestream.vseek {H W : Type} (os : CLib H W) (s : pofilestream H) (n : Nat) (w : W) :
    Outcome (pofilestream H × W) :=
  match check_seekable s.m_flags with
  | .error msg => .throws msg (s, w)
  | .ok _ =>
    match os.fseek s.m_file SEEK_SET (int_of_pos n) w with
    | (r, w1) =>
      if r < 0 then .ok (⟨set_flag s.m_flags FLAG_ERROR, s.m_file, s.m_pos⟩, w1)
      else
        .ok (⟨if os.ferror s.m_file w1 then set_flag s.m_flags FLAG_ERROR else s.m_flags,
              s.m_file, n⟩, w1)

/-- Embeds `pofilestream::vtell`. -/
def pofilestream.vtell {H W : Type} (os : CLib H W) (s : pofilestream H) (w : W) : Nat :=
  if os.ftell s.m_file w < 0 then s.m_pos else (os.ftell s.m_file w).toNat

/-- Embeds `postream::write(const void *buf, unsigned n)` on a `pofilestream`. -/
def pofilestream.write {H W : Type} (os : CLib H W) (s : pofilestream H)
    (buf : List UInt8) (n : Nat) (w : W) : pofilestream H × W :=
  s.vwrite os buf n w

/-- Embeds `pstream::seek` on a `pofilestream`. -/
def pofilestream.seek {H W : Type} (os : CLib H W) (s : pofilestream H) (n : Nat) (w : W) :
    Outcome (pofilestream H × W) :=
  pstream.seek (fun sw => sw.1.m_flags) (fun sw k => pofilestream.vseek os sw.1 k sw.2) (s, w) n

/-- Embeds `pstream::tell` on a `pofilestream`. -/
def pofilestream.tell {H W : Type} (os : CLib H W) (s : pofilestream H) (w : W) : Nat :=
  s.vtell os w

/-! ## A reference operating system with one file -/

/-- A call of `<cstdio>` that acts on the operating system, as recorded by the
reference system. -/
inductive Call where
  | fopen (mode : String) : Call
  | fclose (h : Option Nat) : Call
  | fread (h : Option Nat) (n : Nat) : Call
  | fwrite (h : Option Nat) (n : Nat) : Call
  | fseek (h : Option Nat) (offset whence : Int) : Call
  deriving DecidableEq, Repr

/-- State of the reference system: one file, with the only handle `some 0` once
it is open. `openable` tells whether `fopen` succeeds, `seekable` whether the
file is a regular file rather than a pipe; `position`, `at_eof` and `failed` are
the position, end-of-file and error indicators of the handle; `calls` records
every call made, in order. -/
structure Disk where
  openable : Bool
  seekable : Bool
  content : List UInt8
  is_open : Bool
  position : Nat
  at_eof : Bool
  failed : Bool
  calls : List Call
  deriving DecidableEq, Repr

/-- The handle is the open handle of the file. -/
def Disk.valid (w : Disk) (h : Option Nat) : Bool := h == some 0 && w.is_open

/-- Reference `fopen`: mode `wb` truncates the file. -/
def Disk.fopen (_fname : String) (mode : String) (w : Disk) : Option Nat × Disk :=
  if w.openable then
    (some 0, { w with is_open := true, position := 0, at_eof := false, failed := false,
                      content := if mode = "wb" then [] else w.content,
                      calls := w.calls ++ [Call.fopen mode] })
  else (none, { w with calls := w.calls ++ [Call.fopen mode] })

/-- Reference `fclose`. -/
def Disk.fclose (h : Option Nat) (w : Disk) : Disk :=
  { w with is_open := if w.valid h then false else w.is_open,
           calls := w.calls ++ [Call.fclose h] }

/-- Reference `fread` with element size 1. -/
def Disk.fread (h : Option Nat) (buf : List UInt8) (n : Nat) (w : Disk) :
    Nat × List UInt8 × Disk :=
  if w.valid h then
    (min n (w.content.length - w.position),
     memcpy buf 0 (w.content.drop w.position) (min n (w.content.length - w.position)),
     { w with position := w.position + min n (w.content.length - w.position),
              at_eof := w.at_eof || decide (min n (w.content.length - w.position) < n),
              calls := w.calls ++ [Call.fread h n] })
  else (0, buf, { w with calls := w.calls ++ [Call.fread h n] })

/-- Reference `fwrite` with element size 1. -/
def Disk.fwrite (h : Option Nat) (buf : List UInt8) (n : Nat) (w : Disk) : Nat × Disk :=
  if w.valid h then
    (n, { w with content := w.content.take w.position ++ buf.take n ++
                            w.content.drop (w.position + n),
                 position := w.position + n,
                 calls := w.calls ++ [Call.fwrite h n] })
  else (0, { w with calls := w.calls ++ [Call.fwrite h n] })

/-- Reference `fseek(stream, offset, whence)` of the C standard: the new
position is `offset` counted from the start, the current position or the end
as `whence` is `SEEK_SET`, `SEEK_CUR` or `SEEK_END`; any other `whence`, a
negative result, a pipe or a handle that is not open makes the call fail with
`-1` and leaves the position. Success clears the end-of-file indicator. -/
def Disk.fseek (h : Option Nat) (offset whence : Int) (w : Disk) : Int × Disk :=
  let origin : Option Int :=
    if whence = SEEK_SET then some 0
    else if whence = SEEK_CUR then some (w.position : Int)
    else if whence = SEEK_END then some (w.content.length : Int)
    else none
  match origin with
  | some o =>
    if w.valid h && w.seekable && decide (0 ≤ o + offset) then
      (0, { w with position := (o + offset).toNat, at_eof := false,
                   calls := w.calls ++ [Call.fseek h offset whence] })
    else (-1, { w with calls := w.calls ++ [Call.fseek h offset whence] })
  | none => (-1, { w with calls := w.calls ++ [Call.fseek h offset whence] })

/-- Reference `ftell`. -/
def Disk.ftell (h : Option Nat) (w : Disk) : Int :=
  if w.valid h && w.seekable then (w.position : Int) else -1

/-- Reference `feof`. -/
def Disk.feof (h : Option Nat) (w : Disk) : Bool := w.valid h && w.at_eof

/-- Reference `ferror`. -/
def Disk.ferror (h : Option Nat) (w : Disk) : Bool := w.valid h && w.failed

/-- The reference system as a C library. -/
def disk : CLib Nat Disk :=
  { fopen := Disk.fopen, fclose := Disk.fclose, fread := Disk.fread, fwrite := Disk.fwrite,
    fseek := Disk.fseek, ftell := Disk.ftell, feof := Disk.feof, ferror := Disk.ferror }

/-- A closed regular file with the given content, before any call. -/
def Disk.file (content : List UInt8) : Disk :=
  { openable := true, seekable := true, content := content, is_open := false,
    position := 0, at_eof := false, failed := false, calls := [] }

/-- A path that cannot be opened, before any call. -/
def Disk.missing : Disk :=
  { openable := false, seekable := false, content := [], is_open := false,
    position := 0, at_eof := false, failed := false, calls := [] }

/-- Number of `fclose` calls in a record of calls. -/
def count_fclose (calls : List Call) : Nat :=
  (calls.filter (fun c => match c with
    | Call.fclose _ => true
    | _ => false)).length

/-! ## Flag transition rules -/

/-- The error flag and the closed flag, when set in `f`, are set in `f1`. -/
def sticky (f f1 : Nat) : Prop :=
  (f &&& FLAG_ERROR ≠ 0 → f1 &&& FLAG_ERROR ≠ 0) ∧
  (f &&& FLAG_CLOSED ≠ 0 → f1 &&& FLAG_CLOSED ≠ 0)

/-- The EOF flag, when set in `f`, is set in `f1`. -/
def eof_stays (f f1 : Nat) : Prop := f &&& FLAG_EOF ≠ 0 → f1 &&& FLAG_EOF ≠ 0

/-- The reference system after a regular file with the given content has been
opened for reading by a file stream constructor: `fopen`, then the probe
`fseek(m_file, 0, SEEK_SET)`. -/
def Disk.opened (content : List UInt8) : Disk :=
  { Disk.file content with
    is_open := true, calls := [Call.fopen "rb", Call.fseek (some 0) 0 SEEK_SET] }

/-- The reference system after a regular file has been opened for writing by a
file stream constructor. -/
def Disk.created : Disk :=
  { Disk.file [] with
    is_open := true, calls := [Call.fopen "wb", Call.fseek (some 0) 0 SEEK_SET] }

/-! ## The copy made when a `pomemstream` grows -/

/-- Count of the `memcpy(m_mem, o, m_pos)` in the growing branch of
`pomemstream::vwrite(buf, n)`: `m_pos` is still the position before the call.
The value is `none` when the branch is not entered. -/
def pomemstream.vwrite_copy_count (s : pomemstream) (n : Nat) : Option Nat :=
  if (s.m_pos + n) % POS_MOD ≥ s.m_capacity then some s.m_pos else none

/-- Count of the `memcpy(m_mem, o, m_pos)` in the growing branch of
`pomemstream::vseek(n)`: `m_pos = n` has been executed before, so the count is
`n`. The value is `none` when the branch is not entered. -/
def pomemstream.vseek_copy_count (s : pomemstream) (n : Nat) : Option Nat :=
  if max n s.m_size ≥ s.m_capacity then some n else none

/-! ## The line of the specification -/

/-- The line the specification describes for the bytes `ys` that stand in front
of the terminating LF: `ys` without the carriage returns that immediately
precede the LF, every other carriage return kept. -/
def line_without_final_cr (ys : List UInt8) : List UInt8 :=
  (ys.reverse.dropWhile (fun b => b == 13)).reverse

/-- An allocator that hands out zeroed blocks of up to `limit` bytes and
returns a null pointer for a larger request. -/
def palloc_upto (limit n : Nat) : Option (List UInt8) :=
  if n ≤ limit then some (List.replicate n 0) else none

/-- An input stream in state `s` delivers the bytes `ys` to successive
single-byte reads, which leave it in state `s1`. -/
def delivers {σ : Type} (vread : σ → List UInt8 → Nat → Nat × List UInt8 × σ) :
    σ → List UInt8 → σ → Prop
  | s, [], s1 => s = s1
  | s, y :: ys, s1 =>
    ∃ s0, (∀ c, pistream.read_byte vread s c = (true, y, s0)) ∧ delivers vread s0 ys s1

/-! # Lemmas and theorems -/
theorem and_set_flag_self (f a : Nat) : set_flag f a &&& a = a := by
  unfold set_flag
  apply Nat.eq_of_testBit_eq
  intro i
  simp only [Nat.testBit_and, Nat.testBit_or]
  cases f.testBit i <;> cases a.testBit i <;> rfl

theorem and_set_flag_of_disjoint (f a b : Nat) (h : a &&& b = 0) :
    set_flag f a &&& b = f &&& b := by
  unfold set_flag
  rw [Nat.and_distrib_right, h, Nat.or_zero]

theorem and_clear_flag (f a b : Nat) :
    clear_flag f a &&& b = f &&& (((UINT_MOD - 1) ^^^ a) &&& b) := by
  unfold clear_flag
  rw [Nat.and_assoc]


theorem vread_eq (s : pimemstream) (buf : List UInt8) (n : Nat)
    (hpos : s.m_pos ≤ s.m_len) (hlen : s.m_len + UINT_MOD ≤ POS_MOD) (hn : n < UINT_MOD) :
    s.vread buf n =
      (min n (s.m_len - s.m_pos),
       if min n (s.m_len - s.m_pos) > 0 then
         memcpy buf 0 (s.m_mem.drop s.m_pos) (min n (s.m_len - s.m_pos)) else buf,
       { m_flags := if min n (s.m_len - s.m_pos) < n then set_flag s.m_flags FLAG_EOF
                    else s.m_flags,
         m_pos := s.m_pos + min n (s.m_len - s.m_pos), m_len := s.m_len, m_mem := s.m_mem }) := by
  have hret : (if (s.m_pos + n) % POS_MOD ≤ s.m_len then n
      else (s.m_len + POS_MOD - s.m_pos) % POS_MOD) % UINT_MOD = min n (s.m_len - s.m_pos) := by
    unfold POS_MOD UINT_MOD at *
    split <;> omega
  unfold pimemstream.vread
  simp only [hret]
  have hp : (s.m_pos + min n (s.m_len - s.m_pos)) % POS_MOD = s.m_pos + min n (s.m_len - s.m_pos) := by
    unfold POS_MOD UINT_MOD at *
    omega
  rw [hp]
  by_cases h0 : min n (s.m_len - s.m_pos) > 0
  · simp only [h0, if_true]
  · have : min n (s.m_len - s.m_pos) = 0 := by omega
    simp only [this, Nat.lt_irrefl, if_false, Nat.add_zero]

theorem memcpy_length (dst : List UInt8) (off : Nat) (src : List UInt8) (n : Nat) :
    (memcpy dst off src n).length = dst.length := by
  induction dst generalizing off src n with
  | nil => simp [memcpy]
  | cons d ds ih =>
    cases off with
    | succ off => simp [memcpy, ih]
    | zero =>
      cases src with
      | nil => simp [memcpy]
      | cons c cs =>
        cases n with
        | zero => simp [memcpy]
        | succ n => simp [memcpy, ih]

theorem memcpy_zero_count (dst : List UInt8) (off : Nat) (src : List UInt8) :
    memcpy dst off src 0 = dst := by
  induction dst generalizing off src with
  | nil => simp [memcpy]
  | cons d ds ih =>
    cases off with
    | succ off => simp [memcpy, ih]
    | zero => cases src <;> simp [memcpy]

/-- Reading `memcpy(dst + off, src, n)` at index `i`. -/
theorem memcpy_getElem? (dst : List UInt8) (off : Nat) (src : List UInt8) (n i : Nat) :
    (memcpy dst off src n)[i]? =
      if off ≤ i ∧ i < off + n ∧ i - off < src.length ∧ i < dst.length then src[i - off]?
      else dst[i]? := by
  induction dst generalizing off src n i with
  | nil => simp [memcpy]
  | cons d ds ih =>
    cases off with
    | succ off =>
      cases i with
      | zero => simp [memcpy]
      | succ i =>
        simp only [memcpy, List.getElem?_cons_succ, ih, List.length_cons]
        have e : i + 1 - (off + 1) = i - off := by omega
        rw [e]
        by_cases h : off ≤ i ∧ i < off + n ∧ i - off < src.length ∧ i < ds.length
        · have h2 : off + 1 ≤ i + 1 ∧ i + 1 < off + 1 + n ∧ i - off < src.length ∧ i + 1 < ds.length + 1 := by omega
          rw [if_pos h, if_pos h2]
        · have h2 : ¬ (off + 1 ≤ i + 1 ∧ i + 1 < off + 1 + n ∧ i - off < src.length ∧ i + 1 < ds.length + 1) := by omega
          rw [if_neg h, if_neg h2]
    | zero =>
      cases src with
      | nil => simp [memcpy]
      | cons c cs =>
        cases n with
        | zero => simp [memcpy]
        | succ n =>
          cases i with
          | zero => simp [memcpy]
          | succ i =>
            simp only [memcpy, List.getElem?_cons_succ, ih, List.length_cons]
            by_cases h : 0 ≤ i ∧ i < 0 + n ∧ i - 0 < cs.length ∧ i < ds.length
            · have h2 : 0 ≤ i + 1 ∧ i + 1 < 0 + (n + 1) ∧ i + 1 - 0 < cs.length + 1 ∧ i + 1 < ds.length + 1 := by omega
              rw [if_pos h, if_pos h2]
              simp
            · have h2 : ¬ (0 ≤ i + 1 ∧ i + 1 < 0 + (n + 1) ∧ i + 1 - 0 < cs.length + 1 ∧ i + 1 < ds.length + 1) := by omega
              rw [if_neg h, if_neg h2]

theorem memcpy_zero_eq (dst src : List UInt8) (n : Nat) (hs : n ≤ src.length)
    (hd : n ≤ dst.length) : memcpy dst 0 src n = src.take n ++ dst.drop n := by
  induction dst generalizing src n with
  | nil =>
    have : n = 0 := by simpa using hd
    subst this
    simp [memcpy]
  | cons d ds ih =>
    cases n with
    | zero => simp [memcpy_zero_count]
    | succ n =>
      cases src with
      | nil => simp at hs
      | cons c cs =>
        simp only [List.length_cons, Nat.add_le_add_iff_right] at hs hd
        simp [memcpy, ih cs n hs hd]

theorem read_byte_lt (s : pimemstream) (c : UInt8) (hpos : s.m_pos < s.m_len)
    (hlen : s.m_len + UINT_MOD ≤ POS_MOD) :
    pistream.read_byte pimemstream.vread s c =
      (true, (s.m_mem.drop s.m_pos).headD c,
       { m_flags := s.m_flags, m_pos := s.m_pos + 1, m_len := s.m_len, m_mem := s.m_mem }) := by
  have h1 : min 1 (s.m_len - s.m_pos) = 1 := by omega
  have hn : 1 < UINT_MOD := by unfold UINT_MOD; omega
  unfold pistream.read_byte
  rw [vread_eq s [c] 1 (by omega) hlen hn]
  simp only [h1]
  cases hd : s.m_mem.drop s.m_pos with
  | nil => simp [memcpy]
  | cons x xs => simp [memcpy]

theorem read_byte_at (s : pimemstream) (c x : UInt8) (hpos : s.m_pos < s.m_len)
    (hlen : s.m_len + UINT_MOD ≤ POS_MOD) (hx : s.m_mem[s.m_pos]? = some x) :
    pistream.read_byte pimemstream.vread s c =
      (true, x,
       { m_flags := s.m_flags, m_pos := s.m_pos + 1, m_len := s.m_len, m_mem := s.m_mem }) := by
  rw [read_byte_lt s c hpos hlen]
  have : (s.m_mem.drop s.m_pos).headD c = x := by
    rw [List.headD_eq_head?_getD, List.head?_drop, hx]
    rfl
  rw [this]

theorem read_byte_end (s : pimemstream) (c : UInt8) (hpos : s.m_pos = s.m_len)
    (hlen : s.m_len + UINT_MOD ≤ POS_MOD) :
    pistream.read_byte pimemstream.vread s c =
      (false, c,
       { m_flags := set_flag s.m_flags FLAG_EOF, m_pos := s.m_pos, m_len := s.m_len,
         m_mem := s.m_mem }) := by
  have h1 : min 1 (s.m_len - s.m_pos) = 0 := by omega
  have hn : 1 < UINT_MOD := by unfold UINT_MOD; omega
  unfold pistream.read_byte
  rw [vread_eq s [c] 1 (by omega) hlen hn]
  simp [h1]

theorem readline_loop_terminated (f : Nat) (rest : List UInt8) :
    ∀ (ys pre buf mem : List UInt8) (fuel : Nat), mem = pre ++ ys ++ 10 :: rest →
      (∀ y ∈ ys, y ≠ 10) → ys.length < fuel → mem.length + UINT_MOD ≤ POS_MOD →
      pistream.readline_loop pimemstream.vread fuel
        { m_flags := f, m_pos := pre.length + 1, m_len := mem.length, m_mem := mem }
        ((ys ++ [10]).headD 10) buf
      = some (buf ++ ys.filter (fun b => decide (b ≠ 13)),
          { m_flags := f, m_pos := pre.length + ys.length + 1, m_len := mem.length,
            m_mem := mem }) := by
  intro ys
  induction ys with
  | nil =>
    intro pre buf mem fuel _ _ hfuel _
    obtain ⟨fuel, rfl⟩ : ∃ k, fuel = k + 1 := ⟨fuel - 1, by simp at hfuel; omega⟩
    simp [pistream.readline_loop]
  | cons y ys ih =>
    intro pre buf mem fuel hmem hys hfuel hlen
    obtain ⟨fuel, rfl⟩ : ∃ k, fuel = k + 1 := ⟨fuel - 1, by omega⟩
    have hy : y ≠ 10 := hys y (List.mem_cons_self _ _)
    have hmem2 : mem = (pre ++ [y]) ++ ys ++ 10 :: rest := by simp [hmem]
    have hlt : pre.length + 1 < mem.length := by
      rw [hmem2]; simp
    have hx : mem[pre.length + 1]? = some ((ys ++ [10]).headD 10) := by
      rw [hmem2]
      have e : pre.length + 1 = (pre ++ [y]).length := by simp
      rw [List.append_assoc, e, List.getElem?_append_right (Nat.le_refl _)]
      cases ys <;> simp
    have hrb := read_byte_at
      { m_flags := f, m_pos := pre.length + 1, m_len := mem.length, m_mem := mem } y
      ((ys ++ [10]).headD 10) hlt hlen hx
    have hrec := ih (pre ++ [y]) (if y ≠ 13 then buf ++ [y] else buf) mem fuel hmem2
      (fun z hz => hys z (List.mem_cons_of_mem _ hz)) (by simp at hfuel; omega) hlen
    simp only [List.length_append, List.length_singleton] at hrec
    simp only [pistream.readline_loop, List.cons_append, List.headD_cons, if_neg hy, hrb, hrec]
    have e1 : pre.length + 1 + ys.length + 1 = pre.length + (y :: ys).length + 1 := by
      simp; omega
    rw [e1]
    by_cases h13 : y = 13
    · simp [h13]
    · simp [h13, List.filter_cons]

theorem readline_loop_unterminated (f : Nat) :
    ∀ (ys pre buf mem : List UInt8) (c : UInt8) (fuel : Nat), mem = pre ++ c :: ys →
      c ≠ 10 → (∀ y ∈ ys, y ≠ 10) → ys.length < fuel → mem.length + UINT_MOD ≤ POS_MOD →
      pistream.readline_loop pimemstream.vread fuel
        { m_flags := f, m_pos := pre.length + 1, m_len := mem.length, m_mem := mem } c buf
      = some (buf ++ (c :: ys).filter (fun b => decide (b ≠ 13)),
          { m_flags := set_flag f FLAG_EOF, m_pos := mem.length, m_len := mem.length,
            m_mem := mem }) := by
  intro ys
  induction ys with
  | nil =>
    intro pre buf mem c fuel hmem hc _ hfuel hlen
    obtain ⟨fuel, rfl⟩ : ∃ k, fuel = k + 1 := ⟨fuel - 1, by simp at hfuel; omega⟩
    have hend : pre.length + 1 = mem.length := by rw [hmem]; simp
    have hrb := read_byte_end
      { m_flags := f, m_pos := pre.length + 1, m_len := mem.length, m_mem := mem } c hend hlen
    simp only [pistream.readline_loop, if_neg hc, hrb]
    by_cases h13 : c = 13
    · simp [h13, hend]
    · simp [h13, List.filter_cons, hend]
  | cons y ys ih =>
    intro pre buf mem c fuel hmem hc hys hfuel hlen
    obtain ⟨fuel, rfl⟩ : ∃ k, fuel = k + 1 := ⟨fuel - 1, by omega⟩
    have hy : y ≠ 10 := hys y (List.mem_cons_self _ _)
    have hmem2 : mem = (pre ++ [c]) ++ y :: ys := by simp [hmem]
    have hlt : pre.length + 1 < mem.length := by
      rw [hmem2]; simp
    have hx : mem[pre.length + 1]? = some y := by
      rw [hmem2]
      have e : pre.length + 1 = (pre ++ [c]).length := by simp
      rw [e, List.getElem?_append_right (Nat.le_refl _)]
      simp
    have hrb := read_byte_at
      { m_flags := f, m_pos := pre.length + 1, m_len := mem.length, m_mem := mem } c
      y hlt hlen hx
    have hrec := ih (pre ++ [c]) (if c ≠ 13 then buf ++ [c] else buf) mem y fuel hmem2 hy
      (fun z hz => hys z (List.mem_cons_of_mem _ hz)) (by simp at hfuel; omega) hlen
    simp only [List.length_append, List.length_singleton] at hrec
    simp only [pistream.readline_loop, if_neg hc, hrb, hrec]
    by_cases h13 : c = 13
    · simp [h13]
    · simp [h13, List.filter_cons]

/-- The call `readline` with no byte left: it fails, with an empty line and EOF set. -/
theorem readline_at_end (s : pimemstream) (fuel : Nat) (hpos : s.m_pos = s.m_len)
    (hlen : s.m_len + UINT_MOD ≤ POS_MOD) :
    s.readline fuel = some (false, [],
      { m_flags := set_flag s.m_flags FLAG_EOF, m_pos := s.m_pos, m_len := s.m_len,
        m_mem := s.m_mem }) := by
  unfold pimemstream.readline pistream.readline
  rw [read_byte_end s 0 hpos hlen]

/-- The call `readline` in front of `ys ++ LF`: the line is `ys` without its carriage
returns, and the stream stands behind the line feed. -/
theorem readline_terminated (f : Nat) (pre ys rest : List UInt8) (fuel : Nat)
    (hys : ∀ y ∈ ys, y ≠ 10) (hfuel : ys.length < fuel)
    (hlen : (pre ++ ys ++ 10 :: rest).length + UINT_MOD ≤ POS_MOD) :
    pimemstream.readline fuel
      { m_flags := f, m_pos := pre.length, m_len := (pre ++ ys ++ 10 :: rest).length,
        m_mem := pre ++ ys ++ 10 :: rest }
    = some (true, ys.filter (fun b => decide (b ≠ 13)),
        { m_flags := f, m_pos := pre.length + ys.length + 1,
          m_len := (pre ++ ys ++ 10 :: rest).length, m_mem := pre ++ ys ++ 10 :: rest }) := by
  have hlt : pre.length < (pre ++ ys ++ 10 :: rest).length := by simp
  have hx : (pre ++ ys ++ 10 :: rest)[pre.length]? = some ((ys ++ [10]).headD 10) := by
    rw [List.append_assoc, List.getElem?_append_right (Nat.le_refl _)]
    cases ys <;> simp
  have hrb := read_byte_at
    { m_flags := f, m_pos := pre.length, m_len := (pre ++ ys ++ 10 :: rest).length,
      m_mem := pre ++ ys ++ 10 :: rest } 0 ((ys ++ [10]).headD 10) hlt hlen hx
  have hloop := readline_loop_terminated f rest ys pre [] _ fuel rfl hys hfuel hlen
  unfold pimemstream.readline pistream.readline
  rw [hrb]
  simp only [hloop, List.nil_append]

/-- The call `readline` in front of a last line `c :: ys` without a line feed: the
line is `c :: ys` without its carriage returns, the stream stands at the end
with EOF set. -/
theorem readline_unterminated (f : Nat) (pre ys : List UInt8) (c : UInt8) (fuel : Nat)
    (hc : c ≠ 10) (hys : ∀ y ∈ ys, y ≠ 10) (hfuel : ys.length < fuel)
    (hlen : (pre ++ c :: ys).length + UINT_MOD ≤ POS_MOD) :
    pimemstream.readline fuel
      { m_flags := f, m_pos := pre.length, m_len := (pre ++ c :: ys).length,
        m_mem := pre ++ c :: ys }
    = some (true, (c :: ys).filter (fun b => decide (b ≠ 13)),
        { m_flags := set_flag f FLAG_EOF, m_pos := (pre ++ c :: ys).length,
          m_len := (pre ++ c :: ys).length, m_mem := pre ++ c :: ys }) := by
  have hlt : pre.length < (pre ++ c :: ys).length := by simp
  have hx : (pre ++ c :: ys)[pre.length]? = some c := by
    rw [List.getElem?_append_right (Nat.le_refl _)]
    simp
  have hrb := read_byte_at
    { m_flags := f, m_pos := pre.length, m_len := (pre ++ c :: ys).length,
      m_mem := pre ++ c :: ys } 0 c hlt hlen hx
  have hloop := readline_loop_unterminated f ys pre [] _ c fuel rfl hc hys hfuel hlen
  unfold pimemstream.readline pistream.readline
  rw [hrb]
  simp only [hloop, List.nil_append]

theorem filter_no_cr (l : List UInt8) (h : ∀ b ∈ l, b ≠ 10 ∧ b ≠ 13) :
    l.filter (fun b => decide (b ≠ 13)) = l := by
  rw [List.filter_eq_self]
  intro b hb
  simpa using (h b hb).2

theorem readlines_succ (fuel k : Nat) (s : pimemstream) :
    pimemstream.readlines fuel (k + 1) s =
      match s.readline fuel with
      | none => none
      | some (b, line, s1) =>
        match pimemstream.readlines fuel k s1 with
        | none => none
        | some rest => some ((b, line) :: rest) := rfl

theorem readlines_lines (last : List UInt8) (fuel : Nat)
    (hlast : ∀ b ∈ last, b ≠ 10 ∧ b ≠ 13) :
    ∀ (lines : List (List UInt8 × Ending)) (pre mem : List UInt8) (f : Nat),
      mem = pre ++ (encode_lines lines ++ last) →
      (∀ l ∈ lines, ∀ b ∈ l.1, b ≠ 10 ∧ b ≠ 13) →
      (encode_lines lines ++ last).length ≤ fuel →
      mem.length + UINT_MOD ≤ POS_MOD →
      pimemstream.readlines fuel ((expected_lines lines last).length + 1)
        { m_flags := f, m_pos := pre.length, m_len := mem.length, m_mem := mem }
      = some ((expected_lines lines last).map (fun l => (true, l)) ++ [(false, [])]) := by
  intro lines
  induction lines with
  | nil =>
    intro pre mem f hmem _ hfuel hlen
    simp only [encode_lines, List.nil_append] at hmem hfuel
    cases last with
    | nil =>
      have hend : pre.length = mem.length := by rw [hmem]; simp
      have h := readline_at_end
        { m_flags := f, m_pos := pre.length, m_len := mem.length, m_mem := mem } fuel hend hlen
      simp [expected_lines, pimemstream.readlines, h]
    | cons c ys =>
      have hc : c ≠ 10 := (hlast c (List.mem_cons_self _ _)).1
      have hys : ∀ y ∈ ys, y ≠ 10 := fun y hy => (hlast y (List.mem_cons_of_mem _ hy)).1
      have h := readline_unterminated f pre ys c fuel hc hys
        (by simp at hfuel; omega) (by rw [← hmem]; exact hlen)
      rw [← hmem] at h
      have h2 := readline_at_end
        { m_flags := set_flag f FLAG_EOF, m_pos := mem.length, m_len := mem.length,
          m_mem := mem } fuel rfl hlen
      rw [filter_no_cr (c :: ys) hlast] at h
      have hexp : expected_lines [] (c :: ys) = [c :: ys] := by simp [expected_lines]
      rw [hexp]
      simp only [List.length_singleton, readlines_succ, h, h2, pimemstream.readlines]
      simp
  | cons le ls ih =>
    intro pre mem f hmem hlines hfuel hlen
    obtain ⟨l, e⟩ := le
    have hl : ∀ b ∈ l, b ≠ 10 ∧ b ≠ 13 := hlines (l, e) (List.mem_cons_self _ _)
    have hls : ∀ l ∈ ls, ∀ b ∈ l.1, b ≠ 10 ∧ b ≠ 13 :=
      fun x hx => hlines x (List.mem_cons_of_mem _ hx)
    cases e with
    | lf =>
      have hm : mem = pre ++ l ++ 10 :: (encode_lines ls ++ last) := by
        simp [hmem, encode_lines, Ending.bytes]
      have h := readline_terminated f pre l (encode_lines ls ++ last) fuel
        (fun y hy => (hl y hy).1)
        (by simp [encode_lines, Ending.bytes] at hfuel; omega) (by rw [← hm]; exact hlen)
      rw [← hm] at h
      have hm2 : mem = (pre ++ l ++ [10]) ++ (encode_lines ls ++ last) := by
        simp [hmem, encode_lines, Ending.bytes]
      have hrec := ih (pre ++ l ++ [10]) mem f hm2 hls
        (by simp [encode_lines, Ending.bytes] at hfuel ⊢; omega) hlen
      simp only [List.length_append, List.length_singleton] at hrec
      have hexp : expected_lines ((l, Ending.lf) :: ls) last = l :: expected_lines ls last := by
        simp [expected_lines]
      rw [hexp, List.length_cons, readlines_succ, h, filter_no_cr l hl]
      simp only [hrec]
      simp
    | crlf =>
      have hm : mem = pre ++ (l ++ [13]) ++ 10 :: (encode_lines ls ++ last) := by
        simp [hmem, encode_lines, Ending.bytes]
      have hl13 : ∀ y ∈ l ++ [13], y ≠ 10 := by
        intro y hy
        rcases List.mem_append.1 hy with hy | hy
        · exact (hl y hy).1
        · have : y = 13 := by simpa using hy
          rw [this]; decide
      have h := readline_terminated f pre (l ++ [13]) (encode_lines ls ++ last) fuel hl13
        (by simp [encode_lines, Ending.bytes] at hfuel ⊢; omega) (by rw [← hm]; exact hlen)
      rw [← hm] at h
      have hm2 : mem = (pre ++ l ++ [13, 10]) ++ (encode_lines ls ++ last) := by
        simp [hmem, encode_lines, Ending.bytes]
      have hrec := ih (pre ++ l ++ [13, 10]) mem f hm2 hls
        (by simp [encode_lines, Ending.bytes] at hfuel ⊢; omega) hlen
      simp only [List.length_append, List.length_singleton, List.length_cons, List.length_nil]
        at hrec h
      have hexp : expected_lines ((l, Ending.crlf) :: ls) last = l :: expected_lines ls last := by
        simp [expected_lines]
      have hf : (l ++ [13]).filter (fun b => decide (b ≠ 13)) = l := by
        rw [List.filter_append, filter_no_cr l hl]
        simp
      have e2 : pre.length + (l.length + (0 + 1)) + 1 = pre.length + l.length + (0 + 1 + 1) := by
        omega
      rw [hexp, List.length_cons, readlines_succ, h, hf, e2]
      simp only [hrec]
      simp

theorem readline_loop_returns :
    ∀ (fuel : Nat) (s : pimemstream) (c : UInt8) (buf : List UInt8), s.m_pos ≤ s.m_len →
      s.m_len + UINT_MOD ≤ POS_MOD → s.m_len - s.m_pos < fuel →
      ∃ line s1, pistream.readline_loop pimemstream.vread fuel s c buf = some (line, s1) := by
  intro fuel
  induction fuel with
  | zero => intro s c buf _ _ h; omega
  | succ fuel ih =>
    intro s c buf hpos hlen hfuel
    unfold pistream.readline_loop
    by_cases hc : c = 10
    · exact ⟨buf, s, by rw [if_pos hc]⟩
    · rw [if_neg hc]
      by_cases hend : s.m_pos = s.m_len
      · rw [read_byte_end s c hend hlen]
        exact ⟨_, _, rfl⟩
      · have hlt : s.m_pos < s.m_len := by omega
        rw [read_byte_lt s c hlt hlen]
        exact ih _ _ _ (by show s.m_pos + 1 ≤ s.m_len; omega) hlen
          (by show s.m_len - (s.m_pos + 1) < fuel; omega)

theorem check_seekable_of_seekable (f : Nat) (h : seekable f = true) :
    check_seekable f = .ok () := by
  unfold seekable at h
  unfold check_seekable
  rw [if_neg]
  simpa using h

theorem check_seekable_of_not_seekable (f : Nat) (h : seekable f = false) :
    check_seekable f = .error "stream is not seekable" := by
  unfold seekable at h
  unfold check_seekable
  rw [if_pos]
  simpa using h

theorem eof_set_flag (f : Nat) : eof (set_flag f FLAG_EOF) = true := by
  unfold eof
  rw [and_set_flag_self]
  rfl

/-! ## The doubling loop -/

theorem grow_capacity_zero (fuel target : Nat) : grow_capacity fuel target 0 = none := by
  induction fuel with
  | zero => rfl
  | succ fuel ih =>
    unfold grow_capacity
    rw [if_pos (Nat.zero_le _)]
    exact ih

/-- On exit the capacity exceeds the target. -/
theorem grow_capacity_exit :
    ∀ (fuel target c c1 : Nat), grow_capacity fuel target c = some c1 → target < c1 := by
  intro fuel
  induction fuel with
  | zero => intro target c c1 h; simp [grow_capacity] at h
  | succ fuel ih =>
    intro target c c1 h
    unfold grow_capacity at h
    by_cases hc : target ≥ c
    · rw [if_pos hc] at h
      exact ih _ _ _ h
    · rw [if_neg hc] at h
      have : c = c1 := by simpa using h
      omega

theorem doubled_capacity_lt (c : Nat) (h : doubled_capacity c) : c ≤ 2 ^ 63 ∧ 1024 ≤ c := by
  obtain ⟨k, hk, rfl⟩ := h
  have h1 : 2 ^ k ≤ 2 ^ 53 := Nat.pow_le_pow_right (by decide) hk
  have h2 : 1 ≤ 2 ^ k := Nat.one_le_two_pow
  constructor
  · calc 1024 * 2 ^ k ≤ 1024 * 2 ^ 53 := Nat.mul_le_mul_left _ h1
      _ = 2 ^ 63 := by norm_num
  · omega

/-- Doubling a capacity `1024 * 2 ^ k` on 64 bits gives `1024 * 2 ^ (k + 1)`, or
`0` when `k = 53`. -/
theorem doubled_capacity_step (c : Nat) (h : doubled_capacity c) :
    (c < 2 ^ 63 ∧ c * 2 % POS_MOD = c * 2 ∧ doubled_capacity (c * 2)) ∨
    (c = 2 ^ 63 ∧ c * 2 % POS_MOD = 0) := by
  obtain ⟨k, hk, rfl⟩ := h
  by_cases hk53 : k = 53
  · right
    subst hk53
    unfold POS_MOD
    constructor <;> norm_num
  · left
    have hk1 : k + 1 ≤ 53 := by omega
    have hd : doubled_capacity (1024 * 2 ^ k * 2) := ⟨k + 1, hk1, by rw [Nat.pow_succ, Nat.mul_assoc]⟩
    have hb := (doubled_capacity_lt _ hd).1
    unfold POS_MOD
    refine ⟨by omega, by omega, hd⟩

/-- From a capacity `1024 * 2 ^ k` the loop exits only on such a capacity, which
is not smaller. -/
theorem grow_capacity_doubled :
    ∀ (fuel target c c1 : Nat), doubled_capacity c → grow_capacity fuel target c = some c1 →
      doubled_capacity c1 ∧ c ≤ c1 := by
  intro fuel
  induction fuel with
  | zero => intro target c c1 _ h; simp [grow_capacity] at h
  | succ fuel ih =>
    intro target c c1 hc h
    unfold grow_capacity at h
    by_cases ht : target ≥ c
    · rw [if_pos ht] at h
      rcases doubled_capacity_step c hc with ⟨_, hmod, hd⟩ | ⟨_, hmod⟩
      · rw [hmod] at h
        have := ih _ _ _ hd h
        exact ⟨this.1, by omega⟩
      · rw [hmod, grow_capacity_zero] at h
        simp at h
    · rw [if_neg ht] at h
      have : c = c1 := by simpa using h
      subst this
      exact ⟨hc, Nat.le_refl _⟩

/-- From a capacity `1024 * 2 ^ k` the loop exits when the target is below
`2 ^ 63`. -/
theorem grow_capacity_returns :
    ∀ (fuel k target : Nat), k ≤ 53 → 54 ≤ fuel + k → target < 2 ^ 63 →
      ∃ c1, grow_capacity fuel target (1024 * 2 ^ k) = some c1 := by
  intro fuel
  induction fuel with
  | zero => intro k target hk hf _; omega
  | succ fuel ih =>
    intro k target hk hf ht
    unfold grow_capacity
    by_cases hc : target ≥ 1024 * 2 ^ k
    · rw [if_pos hc]
      rcases doubled_capacity_step _ ⟨k, hk, rfl⟩ with ⟨_, hmod, _⟩ | ⟨h63, _⟩
      · rw [hmod]
        have hk53 : k ≠ 53 := by
          intro h
          subst h
          norm_num at hc
          omega
        have e : 1024 * 2 ^ k * 2 = 1024 * 2 ^ (k + 1) := by rw [Nat.pow_succ, Nat.mul_assoc]
        rw [e]
        exact ih (k + 1) target (by omega) (by omega) ht
      · omega
    · rw [if_neg hc]
      exact ⟨_, rfl⟩

theorem grow_capacity_returns_of_doubled (target c : Nat) (hc : doubled_capacity c)
    (ht : target < 2 ^ 63) : ∃ c1, grow_capacity GROW_FUEL target c = some c1 := by
  obtain ⟨k, hk, rfl⟩ := hc
  exact grow_capacity_returns GROW_FUEL k target hk (by unfold GROW_FUEL; omega) ht

/-- More tests of the loop condition than `k + 1` change nothing once `k`
doublings have brought the capacity to `0`. -/
theorem grow_capacity_fuel_of_zero :
    ∀ (k fuel target c : Nat), c * 2 ^ k % POS_MOD = 0 → c < POS_MOD → k < fuel →
      grow_capacity fuel target c = grow_capacity (k + 1) target c := by
  intro k
  induction k with
  | zero =>
    intro fuel target c h0 hc _
    have : c = 0 := by
      rw [Nat.pow_zero, Nat.mul_one, Nat.mod_eq_of_lt hc] at h0
      exact h0
    subst this
    rw [grow_capacity_zero, grow_capacity_zero]
  | succ k ih =>
    intro fuel target c h0 hc hf
    obtain ⟨f, rfl⟩ : ∃ f, fuel = f + 1 := ⟨fuel - 1, by omega⟩
    have hM : 0 < POS_MOD := by unfold POS_MOD; norm_num
    have h1 : c * 2 % POS_MOD * 2 ^ k % POS_MOD = 0 := by
      rw [Nat.mod_mul_mod, Nat.mul_assoc, ← Nat.pow_succ']
      exact h0
    have := ih f target (c * 2 % POS_MOD) h1 (Nat.mod_lt _ hM) (by omega)
    show grow_capacity (f + 1) target c = grow_capacity (k + 1 + 1) target c
    unfold grow_capacity
    rw [this]

/-- The fuel of the model is exact: when `GROW_FUEL` tests of the condition do
not leave the loop, no number of tests does. -/
theorem grow_capacity_fuel (fuel target c : Nat) (hc : c < POS_MOD) (hf : GROW_FUEL ≤ fuel) :
    grow_capacity fuel target c = grow_capacity GROW_FUEL target c := by
  have h0 : c * 2 ^ 64 % POS_MOD = 0 := by
    unfold POS_MOD
    exact Nat.mul_mod_left _ _
  exact grow_capacity_fuel_of_zero 64 fuel target c h0 hc (by unfold GROW_FUEL at hf; omega)

/-! ## One call on a sound `pomemstream` -/

theorem sound_new (palloc : Nat → Option (List UInt8)) (hp : never_fails palloc) :
    (pomemstream.new palloc).sound := by
  obtain ⟨block, hb, hl⟩ := hp 1024
  refine ⟨Nat.le_refl _, ?_, ⟨0, by decide, ?_⟩, ?_, block, hb, hl⟩
  · show 0 < 1024
    decide
  · show 1024 = 1024 * 2 ^ 0
    decide
  · show seekable FLAG_SEEKABLE = true
    decide

/-- A write on a sound stream, when it returns. -/
theorem write_sound (palloc : Nat → Option (List UInt8)) (hp : never_fails palloc)
    (s s1 : pomemstream) (buf : List UInt8) (hs : s.sound) (hn : buf.length < UINT_MOD)
    (h : s.write palloc buf buf.length = .ok s1) :
    s1.sound ∧ s1.m_pos = s.m_pos + buf.length ∧
    s1.m_size = max (s.m_pos + buf.length) s.m_size ∧
    ∀ m, s.holds m → s1.holds (Op.effect (s.m_pos, m) (.write buf)).2 := by
  obtain ⟨hps, hsc, hcap, hseek, o, ho, hol⟩ := hs
  have hc63 := (doubled_capacity_lt _ hcap).1
  have ht : (s.m_pos + buf.length) % POS_MOD = s.m_pos + buf.length := by
    unfold POS_MOD UINT_MOD at *
    omega
  unfold pomemstream.write pomemstream.vwrite at h
  rw [ht, ho] at h
  by_cases hg : s.m_pos + buf.length ≥ s.m_capacity
  · rw [if_pos hg] at h
    cases hgc : grow_capacity GROW_FUEL (s.m_pos + buf.length) s.m_capacity with
    | none => simp [hgc] at h
    | some c1 =>
      obtain ⟨block, hb, hbl⟩ := hp c1
      have hlt := grow_capacity_exit _ _ _ _ hgc
      have hd := grow_capacity_doubled _ _ _ _ hcap hgc
      simp only [hgc, hb, Outcome.ok.injEq] at h
      subst h
      have hmax : max (s.m_pos + buf.length) s.m_size = s.m_pos + buf.length := by omega
      refine ⟨⟨?_, ?_, hd.1, hseek, _, rfl, ?_⟩, rfl, rfl, ?_⟩
      · show s.m_pos + buf.length ≤ max (s.m_pos + buf.length) s.m_size
        omega
      · show max (s.m_pos + buf.length) s.m_size < c1
        omega
      · rw [memcpy_length, memcpy_length, hbl]
      · intro m hm i b hi
        simp only [Op.effect] at hi
        refine ⟨?_, _, rfl, ?_⟩
        · show i < max (s.m_pos + buf.length) s.m_size
          by_cases hin : s.m_pos ≤ i ∧ i < s.m_pos + buf.length
          · omega
          · rw [if_neg hin] at hi
            have := (hm i b hi).1
            omega
        · rw [memcpy_getElem?, memcpy_length, hbl]
          by_cases hin : s.m_pos ≤ i ∧ i < s.m_pos + buf.length
          · rw [if_pos hin] at hi
            rw [if_pos (by omega)]
            exact hi
          · rw [if_neg hin] at hi
            obtain ⟨hlt2, mem, hmem, hget⟩ := hm i b hi
            rw [ho] at hmem
            have : o = mem := by simpa using hmem
            subst this
            rw [if_neg (by omega), memcpy_getElem?, if_pos (by omega)]
            simpa using hget
  · rw [if_neg hg] at h
    simp only [Outcome.ok.injEq] at h
    subst h
    refine ⟨⟨?_, ?_, hcap, hseek, _, rfl, ?_⟩, rfl, rfl, ?_⟩
    · show s.m_pos + buf.length ≤ max (s.m_pos + buf.length) s.m_size
      omega
    · show max (s.m_pos + buf.length) s.m_size < s.m_capacity
      omega
    · rw [memcpy_length, hol]
    · intro m hm i b hi
      simp only [Op.effect] at hi
      refine ⟨?_, _, rfl, ?_⟩
      · show i < max (s.m_pos + buf.length) s.m_size
        by_cases hin : s.m_pos ≤ i ∧ i < s.m_pos + buf.length
        · omega
        · rw [if_neg hin] at hi
          have := (hm i b hi).1
          omega
      · rw [memcpy_getElem?, hol]
        by_cases hin : s.m_pos ≤ i ∧ i < s.m_pos + buf.length
        · rw [if_pos hin] at hi
          rw [if_pos (by omega)]
          exact hi
        · rw [if_neg hin] at hi
          obtain ⟨hlt2, mem, hmem, hget⟩ := hm i b hi
          rw [ho] at hmem
          have : o = mem := by simpa using hmem
          subst this
          rw [if_neg (by omega)]
          exact hget

/-- A write on a sound stream returns when it ends below `2 ^ 63`. -/
theorem write_returns (palloc : Nat → Option (List UInt8)) (hp : never_fails palloc)
    (s : pomemstream) (buf : List UInt8) (hs : s.sound)
    (hlim : s.m_pos + buf.length < 2 ^ 63) :
    ∃ s1, s.write palloc buf buf.length = .ok s1 := by
  obtain ⟨hps, hsc, hcap, hseek, o, ho, hol⟩ := hs
  have ht : (s.m_pos + buf.length) % POS_MOD = s.m_pos + buf.length := by
    unfold POS_MOD
    omega
  unfold pomemstream.write pomemstream.vwrite
  rw [ht, ho]
  by_cases hg : s.m_pos + buf.length ≥ s.m_capacity
  · rw [if_pos hg]
    obtain ⟨c1, hgc⟩ := grow_capacity_returns_of_doubled _ _ hcap hlim
    obtain ⟨block, hb, hbl⟩ := hp c1
    simp only [hgc, hb]
    exact ⟨_, rfl⟩
  · rw [if_neg hg]
    exact ⟨_, rfl⟩

/-- A seek on a sound stream, when it returns. -/
theorem seek_sound (palloc : Nat → Option (List UInt8)) (hp : never_fails palloc)
    (s s1 : pomemstream) (n : Nat) (hs : s.sound)
    (h : s.seek palloc n = .ok s1) :
    s1.sound ∧ s1.m_pos = n ∧ s1.m_size = max n s.m_size ∧
    ∀ m, s.holds m → s1.holds m := by
  obtain ⟨hps, hsc, hcap, hseek, o, ho, hol⟩ := hs
  unfold pomemstream.seek pstream.seek at h
  rw [check_seekable_of_seekable _ hseek] at h
  simp only [pomemstream.vseek] at h
  rw [ho] at h
  by_cases hg : max n s.m_size ≥ s.m_capacity
  · rw [if_pos hg] at h
    cases hgc : grow_capacity GROW_FUEL (max n s.m_size) s.m_capacity with
    | none => simp [hgc] at h
    | some c1 =>
      obtain ⟨block, hb, hbl⟩ := hp c1
      have hlt := grow_capacity_exit _ _ _ _ hgc
      have hd := grow_capacity_doubled _ _ _ _ hcap hgc
      simp only [hgc, hb] at h
      by_cases hno : n ≤ o.length
      swap
      · rw [if_neg hno] at h
        cases h
      rw [if_pos hno] at h
      simp only [Outcome.ok.injEq] at h
      subst h
      refine ⟨⟨?_, hlt, hd.1, hseek, _, rfl, ?_⟩, rfl, rfl, ?_⟩
      · show n ≤ max n s.m_size
        omega
      · rw [memcpy_length, hbl]
      · intro m hm i b hi
        obtain ⟨hlt2, mem, hmem, hget⟩ := hm i b hi
        rw [ho] at hmem
        have : o = mem := by simpa using hmem
        subst this
        refine ⟨?_, _, rfl, ?_⟩
        · show i < max n s.m_size
          omega
        · rw [memcpy_getElem?, hbl, if_pos (by omega)]
          simpa using hget
  · rw [if_neg hg] at h
    simp only [Outcome.ok.injEq] at h
    subst h
    refine ⟨⟨?_, ?_, hcap, hseek, o, rfl, hol⟩, rfl, rfl, ?_⟩
    · show n ≤ max n s.m_size
      omega
    · show max n s.m_size < s.m_capacity
      omega
    · intro m hm i b hi
      obtain ⟨hlt2, mem, hmem, hget⟩ := hm i b hi
      rw [ho] at hmem
      refine ⟨?_, mem, hmem, hget⟩
      show i < max n s.m_size
      omega

/-- A seek on a sound stream returns when its target is at most the capacity
and below `2 ^ 63`: up to the capacity the copy of a growing seek stays inside
the old block. -/
theorem seek_returns (palloc : Nat → Option (List UInt8)) (hp : never_fails palloc)
    (s : pomemstream) (n : Nat) (hs : s.sound) (hcap : n ≤ s.m_capacity)
    (hlim : n < 2 ^ 63) :
    ∃ s1, s.seek palloc n = .ok s1 := by
  obtain ⟨hps, hsc, hdc, hseek, o, ho, hol⟩ := hs
  have hc63 := (doubled_capacity_lt _ hdc).1
  unfold pomemstream.seek pstream.seek
  rw [check_seekable_of_seekable _ hseek]
  simp only [pomemstream.vseek]
  rw [ho]
  by_cases hg : max n s.m_size ≥ s.m_capacity
  · rw [if_pos hg]
    obtain ⟨c1, hgc⟩ := grow_capacity_returns_of_doubled (max n s.m_size) _ hdc (by omega)
    obtain ⟨block, hb, hbl⟩ := hp c1
    simp only [hgc, hb]
    rw [if_pos (by omega)]
    exact ⟨_, rfl⟩
  · rw [if_neg hg]
    exact ⟨_, rfl⟩

/-- A seek past the capacity of a sound stream has undefined behaviour: when
the doubling exits and the allocation succeeds, the copy reads past the end of
the old block. -/
theorem seek_past_capacity (palloc : Nat → Option (List UInt8)) (hp : never_fails palloc)
    (s : pomemstream) (n : Nat) (hs : s.sound) (hcap : s.m_capacity < n)
    (hlim : n < 2 ^ 63) :
    s.seek palloc n = .undefined := by
  obtain ⟨hps, hsc, hdc, hseek, o, ho, hol⟩ := hs
  unfold pomemstream.seek pstream.seek
  rw [check_seekable_of_seekable _ hseek]
  simp only [pomemstream.vseek]
  rw [ho]
  have hg : max n s.m_size ≥ s.m_capacity := by omega
  rw [if_pos hg]
  obtain ⟨c1, hgc⟩ := grow_capacity_returns_of_doubled (max n s.m_size) _ hdc (by omega)
  obtain ⟨block, hb, hbl⟩ := hp c1
  simp only [hgc, hb]
  rw [if_neg (by omega)]

/-! ## Sequences of calls on a sound `pomemstream` -/

theorem run_cons (palloc : Nat → Option (List UInt8)) (op : Op) (ops : List Op)
    (s : pomemstream) :
    pomemstream.run palloc (op :: ops) s =
      match s.apply palloc op with
      | .ok s1 => pomemstream.run palloc ops s1
      | other => other := rfl

theorem run_cons_ok (palloc : Nat → Option (List UInt8)) (op : Op) (ops : List Op)
    (s s1 : pomemstream) (h : s.apply palloc op = .ok s1) :
    pomemstream.run palloc (op :: ops) s = pomemstream.run palloc ops s1 := by
  rw [run_cons, h]

/-- A run that returns has returned from its first call. -/
theorem run_cons_inv (palloc : Nat → Option (List UInt8)) (op : Op) (ops : List Op)
    (s s2 : pomemstream) (h : pomemstream.run palloc (op :: ops) s = .ok s2) :
    ∃ s1, s.apply palloc op = .ok s1 ∧ pomemstream.run palloc ops s1 = .ok s2 := by
  rw [run_cons] at h
  cases ha : s.apply palloc op with
  | ok s1 => rw [ha] at h; exact ⟨s1, rfl, h⟩
  | throws msg s1 => rw [ha] at h; simp at h
  | diverges => rw [ha] at h; simp at h
  | undefined => rw [ha] at h; simp at h

/-- One call on a sound stream that agrees with the ideal store `(p, m)`. -/
theorem apply_sound (palloc : Nat → Option (List UInt8)) (hp : never_fails palloc)
    (s s1 : pomemstream) (op : Op) (m : Nat → Option UInt8) (hs : s.sound)
    (hm : s.holds m) (hty : op.typed) (h : s.apply palloc op = .ok s1) :
    s1.sound ∧ s1.m_pos = (Op.effect (s.m_pos, m) op).1 ∧
      s1.holds (Op.effect (s.m_pos, m) op).2 := by
  cases op with
  | write buf =>
    have := write_sound palloc hp s s1 buf hs hty h
    exact ⟨this.1, this.2.1, this.2.2.2 m hm⟩
  | seek n =>
    have := seek_sound palloc hp s s1 n hs h
    exact ⟨this.1, this.2.1, this.2.2.2 m hm⟩

theorem run_sound (palloc : Nat → Option (List UInt8)) (hp : never_fails palloc) :
    ∀ (ops : List Op) (s s1 : pomemstream) (m : Nat → Option UInt8), s.sound → s.holds m →
      (∀ op ∈ ops, op.typed) → pomemstream.run palloc ops s = .ok s1 →
      s1.sound ∧ s1.m_pos = (ops.foldl Op.effect (s.m_pos, m)).1 ∧
        s1.holds (ops.foldl Op.effect (s.m_pos, m)).2 := by
  intro ops
  induction ops with
  | nil =>
    intro s s1 m hs hm _ h
    have : s = s1 := by simpa [pomemstream.run] using h
    subst this
    exact ⟨hs, rfl, hm⟩
  | cons op ops ih =>
    intro s s1 m hs hm hty h
    obtain ⟨s0, ha, hr⟩ := run_cons_inv palloc op ops s s1 h
    obtain ⟨hs0, hp0, hm0⟩ := apply_sound palloc hp s s0 op m hs hm
      (hty op (List.mem_cons_self _ _)) ha
    have := ih s0 s1 _ hs0 hm0 (fun o ho => hty o (List.mem_cons_of_mem _ ho)) hr
    rw [hp0] at this
    exact this

/-- A sequence of calls that stays inside what the stream can serve returns. -/
theorem run_returns (palloc : Nat → Option (List UInt8)) (hp : never_fails palloc) :
    ∀ (ops : List Op) (s : pomemstream), s.sound → (∀ op ∈ ops, op.typed) →
      stays_inside ops s.m_pos s.m_size →
      ∃ s1, pomemstream.run palloc ops s = .ok s1 := by
  intro ops
  induction ops with
  | nil => intro s _ _ _; exact ⟨s, rfl⟩
  | cons op ops ih =>
    intro s hs hty hw
    have htys : ∀ o ∈ ops, o.typed := fun o ho => hty o (List.mem_cons_of_mem _ ho)
    cases op with
    | write buf =>
      obtain ⟨hw1, hw2⟩ := hw
      obtain ⟨s0, h0⟩ := write_returns palloc hp s buf hs hw1
      have hst := write_sound palloc hp s s0 buf hs (hty _ (List.mem_cons_self _ _)) h0
      obtain ⟨s1, h1⟩ := ih s0 hst.1 htys (by rw [hst.2.1, hst.2.2.1]; exact hw2)
      exact ⟨s1, by rw [run_cons_ok palloc (.write buf) ops s s0 h0]; exact h1⟩
    | seek n =>
      obtain ⟨hw1, hw2⟩ := hw
      have hc := doubled_capacity_lt _ hs.2.2.1
      have hsz := hs.2.1
      obtain ⟨s0, h0⟩ := seek_returns palloc hp s n hs (by omega) (by omega)
      have hst := seek_sound palloc hp s s0 n hs h0
      obtain ⟨s1, h1⟩ := ih s0 hst.1 htys (by rw [hst.2.1, hst.2.2.1]; exact hw2)
      exact ⟨s1, by rw [run_cons_ok palloc (.seek n) ops s s0 h0]; exact h1⟩

theorem holds_nothing (s : pomemstream) : s.holds (fun _ => none) := by
  intro i b h
  simp at h

/-! ## Position, size and capacity after one call, on any state -/

/-- The counters after a `vwrite` that returns: the capacity is the old one or
the exit value of the doubling loop; position and size are advanced, or kept
when the allocation failed. -/
theorem vwrite_ok_fields (palloc : Nat → Option (List UInt8)) (s s1 : pomemstream)
    (buf : List UInt8) (n : Nat) (h : s.vwrite palloc buf n = .ok s1) :
    (if (s.m_pos + n) % POS_MOD ≥ s.m_capacity then
        grow_capacity GROW_FUEL ((s.m_pos + n) % POS_MOD) s.m_capacity = some s1.m_capacity
      else s1.m_capacity = s.m_capacity) ∧
    ((s1.m_pos = (s.m_pos + n) % POS_MOD ∧
        s1.m_size = max ((s.m_pos + n) % POS_MOD) s.m_size) ∨
      (s1.m_pos = s.m_pos ∧ s1.m_size = s.m_size ∧
        (s.m_pos + n) % POS_MOD ≥ s.m_capacity)) := by
  unfold pomemstream.vwrite at h
  by_cases hg : (s.m_pos + n) % POS_MOD ≥ s.m_capacity
  · rw [if_pos hg] at h
    rw [if_pos hg]
    cases hgc : grow_capacity GROW_FUEL ((s.m_pos + n) % POS_MOD) s.m_capacity with
    | none => simp [hgc] at h
    | some c1 =>
      cases hb : palloc c1 with
      | none =>
        simp only [hgc, hb, Outcome.ok.injEq] at h
        subst h
        exact ⟨rfl, Or.inr ⟨rfl, rfl, hg⟩⟩
      | some block =>
        cases ho : s.m_mem with
        | none => simp [hgc, hb, ho] at h
        | some o =>
          simp only [hgc, hb, ho, Outcome.ok.injEq] at h
          subst h
          exact ⟨rfl, Or.inl ⟨rfl, rfl⟩⟩
  · rw [if_neg hg] at h
    rw [if_neg hg]
    cases ho : s.m_mem with
    | none => simp [ho] at h
    | some o =>
      simp only [ho, Outcome.ok.injEq] at h
      subst h
      exact ⟨rfl, Or.inl ⟨rfl, rfl⟩⟩

/-- The call `vwrite` throws no exception. -/
theorem vwrite_not_throws (palloc : Nat → Option (List UInt8)) (s s1 : pomemstream)
    (buf : List UInt8) (n : Nat) (msg : String) :
    s.vwrite palloc buf n ≠ .throws msg s1 := by
  intro h
  unfold pomemstream.vwrite at h
  split at h
  · split at h
    · simp at h
    · split at h
      · simp at h
      · split at h <;> simp at h
  · split at h <;> simp at h

/-- The counters after a `vseek` that returns. -/
theorem vseek_ok_fields (palloc : Nat → Option (List UInt8)) (s s1 : pomemstream)
    (n : Nat) (h : s.vseek palloc n = .ok s1) :
    (if max n s.m_size ≥ s.m_capacity then
        grow_capacity GROW_FUEL (max n s.m_size) s.m_capacity = some s1.m_capacity
      else s1.m_capacity = s.m_capacity) ∧
    s1.m_pos = n ∧ s1.m_size = max n s.m_size := by
  simp only [pomemstream.vseek] at h
  by_cases hg : max n s.m_size ≥ s.m_capacity
  · rw [if_pos hg] at h
    rw [if_pos hg]
    cases hgc : grow_capacity GROW_FUEL (max n s.m_size) s.m_capacity with
    | none => simp [hgc] at h
    | some c1 =>
      cases hb : palloc c1 with
      | none =>
        simp only [hgc, hb, Outcome.ok.injEq] at h
        subst h
        exact ⟨rfl, rfl, rfl⟩
      | some block =>
        cases ho : s.m_mem with
        | none => simp [hgc, hb, ho] at h
        | some o =>
          simp only [hgc, hb, ho] at h
          by_cases hno : n ≤ o.length
          · rw [if_pos hno] at h
            simp only [Outcome.ok.injEq] at h
            subst h
            exact ⟨rfl, rfl, rfl⟩
          · rw [if_neg hno] at h
            cases h
  · rw [if_neg hg] at h
    rw [if_neg hg]
    simp only [Outcome.ok.injEq] at h
    subst h
    exact ⟨rfl, rfl, rfl⟩

/-- The call `vseek` throws no exception. -/
theorem vseek_not_throws (palloc : Nat → Option (List UInt8)) (s s1 : pomemstream)
    (n : Nat) (msg : String) : s.vseek palloc n ≠ .throws msg s1 := by
  intro h
  simp only [pomemstream.vseek] at h
  split at h
  · split at h
    · simp at h
    · split at h
      · simp at h
      · split at h
        · simp at h
        · split at h <;> simp at h
  · simp at h

/-- The call `seek` returns only through `vseek`, and throws only with the state it was
called on. -/
theorem seek_outcome (palloc : Nat → Option (List UInt8)) (s s1 : pomemstream) (n : Nat) :
    (s.seek palloc n = .ok s1 → s.vseek palloc n = .ok s1) ∧
    (∀ msg, s.seek palloc n = .throws msg s1 → s1 = s) := by
  unfold pomemstream.seek pstream.seek
  cases hc : check_seekable s.m_flags with
  | error e =>
    refine ⟨fun h => by simp at h, fun msg h => ?_⟩
    simp only [Outcome.throws.injEq] at h
    exact h.2.symm
  | ok u =>
    exact ⟨fun h => h, fun msg h => absurd h (vseek_not_throws palloc s s1 n msg)⟩

/-- One call that returns keeps `m_pos <= m_size <= m_capacity`, keeps the
capacity of the form `1024 * 2 ^ k`, and does not lower it. -/
theorem apply_ok_fields (palloc : Nat → Option (List UInt8)) (s s1 : pomemstream) (op : Op)
    (h : s.apply palloc op = .ok s1) :
    (s.m_pos ≤ s.m_size ∧ s.m_size ≤ s.m_capacity →
      s1.m_pos ≤ s1.m_size ∧ s1.m_size ≤ s1.m_capacity) ∧
    (doubled_capacity s.m_capacity →
      doubled_capacity s1.m_capacity ∧ s.m_capacity ≤ s1.m_capacity) := by
  cases op with
  | write buf =>
    obtain ⟨hcap, hps⟩ := vwrite_ok_fields palloc s s1 buf buf.length h
    by_cases hg : (s.m_pos + buf.length) % POS_MOD ≥ s.m_capacity
    · rw [if_pos hg] at hcap
      have hlt := grow_capacity_exit _ _ _ _ hcap
      refine ⟨fun hinv => ?_, fun hd => grow_capacity_doubled _ _ _ _ hd hcap⟩
      rcases hps with ⟨h1, h2⟩ | ⟨h1, h2, _⟩ <;> omega
    · rw [if_neg hg] at hcap
      refine ⟨fun hinv => ?_, fun hd => by rw [hcap]; exact ⟨hd, Nat.le_refl _⟩⟩
      rcases hps with ⟨h1, h2⟩ | ⟨h1, h2, h3⟩ <;> omega
  | seek n =>
    obtain ⟨hcap, h1, h2⟩ := vseek_ok_fields palloc s s1 n ((seek_outcome palloc s s1 n).1 h)
    by_cases hg : max n s.m_size ≥ s.m_capacity
    · rw [if_pos hg] at hcap
      have hlt := grow_capacity_exit _ _ _ _ hcap
      exact ⟨fun hinv => by omega, fun hd => grow_capacity_doubled _ _ _ _ hd hcap⟩
    · rw [if_neg hg] at hcap
      exact ⟨fun hinv => by omega, fun hd => by rw [hcap]; exact ⟨hd, Nat.le_refl _⟩⟩

theorem run_capacity (palloc : Nat → Option (List UInt8)) :
    ∀ (ops : List Op) (s s1 : pomemstream), doubled_capacity s.m_capacity →
      pomemstream.run palloc ops s = .ok s1 →
      doubled_capacity s1.m_capacity ∧ s.m_capacity ≤ s1.m_capacity := by
  intro ops
  induction ops with
  | nil =>
    intro s s1 hd h
    have : s = s1 := by simpa [pomemstream.run] using h
    subst this
    exact ⟨hd, Nat.le_refl _⟩
  | cons op ops ih =>
    intro s s1 hd h
    obtain ⟨s0, ha, hr⟩ := run_cons_inv palloc op ops s s1 h
    have h0 := (apply_ok_fields palloc s s0 op ha).2 hd
    have h1 := ih s0 s1 h0.1 hr
    exact ⟨h1.1, by omega⟩

theorem never_fails_zero : never_fails palloc_zero :=
  fun n => ⟨List.replicate n 0, rfl, List.length_replicate n 0⟩

/-! ## Contents, invariant and capacity of a `pomemstream`: C1, C3, C5 -/

/-- C3: the fresh stream has position 0, size 0 and capacity 1024, and every
`write(buf, n)` and `seek(n)` that returns or throws leaves
`m_pos <= m_size <= m_capacity` when it held before the call. -/
theorem position_size_capacity (palloc : Nat → Option (List UInt8)) (s s1 : pomemstream)
    (op : Op) (hinv : s.m_pos ≤ s.m_size ∧ s.m_size ≤ s.m_capacity)
    (h : s.apply palloc op = .ok s1 ∨ ∃ msg, s.apply palloc op = .throws msg s1) :
    ((pomemstream.new palloc).m_pos = 0 ∧ (pomemstream.new palloc).m_size = 0 ∧
      (pomemstream.new palloc).m_capacity = 1024) ∧
    (pomemstream.new palloc).m_pos ≤ (pomemstream.new palloc).m_size ∧
    (pomemstream.new palloc).m_size ≤ (pomemstream.new palloc).m_capacity ∧
    s1.m_pos ≤ s1.m_size ∧ s1.m_size ≤ s1.m_capacity := by
  refine ⟨⟨rfl, rfl, rfl⟩, Nat.le_refl _, by show 0 ≤ 1024; omega, ?_⟩
  rcases h with h | ⟨msg, h⟩
  · exact (apply_ok_fields palloc s s1 op h).1 hinv
  · cases op with
    | write buf => exact absurd h (vwrite_not_throws palloc s s1 buf buf.length msg)
    | seek n =>
      have := (seek_outcome palloc s s1 n).2 msg h
      subst this
      exact hinv

/-- C3 on a stream at position 3 with size 5 and capacity 8: a write of five
bytes grows the buffer and returns with position 8, size 8 and capacity 16. -/
theorem position_size_capacity_witness :
    (⟨FLAG_SEEKABLE, 3, 8, 5, some [1, 2, 3, 4, 5, 0, 0, 0]⟩ : pomemstream).apply palloc_zero
        (.write [7, 7, 7, 7, 7])
      = .ok ⟨FLAG_SEEKABLE, 8, 16, 8, some [1, 2, 3, 7, 7, 7, 7, 7, 0, 0, 0, 0, 0, 0, 0, 0]⟩ ∧
    ((pomemstream.new palloc_zero).m_pos = 0 ∧ (pomemstream.new palloc_zero).m_size = 0 ∧
      (pomemstream.new palloc_zero).m_capacity = 1024) ∧
    (pomemstream.new palloc_zero).m_pos ≤ (pomemstream.new palloc_zero).m_size ∧
    (pomemstream.new palloc_zero).m_size ≤ (pomemstream.new palloc_zero).m_capacity ∧
    (8 : Nat) ≤ 8 ∧ (8 : Nat) ≤ 16 :=
  ⟨by rfl,
   position_size_capacity palloc_zero
    ⟨FLAG_SEEKABLE, 3, 8, 5, some [1, 2, 3, 4, 5, 0, 0, 0]⟩
    ⟨FLAG_SEEKABLE, 8, 16, 8, some [1, 2, 3, 7, 7, 7, 7, 7, 0, 0, 0, 0, 0, 0, 0, 0]⟩
    (.write [7, 7, 7, 7, 7]) (by decide) (Or.inl (by rfl))⟩

/-- C5: in every state reached from a fresh stream by writes and seeks the
capacity is `1024 * 2 ^ k` for some `k`, it is at least 1024, and no later
call lowers it. -/
theorem capacity_doubled (palloc : Nat → Option (List UInt8)) (ops1 ops2 : List Op)
    (s1 s2 : pomemstream)
    (h1 : pomemstream.run palloc ops1 (pomemstream.new palloc) = .ok s1)
    (h2 : pomemstream.run palloc ops2 s1 = .ok s2) :
    (∃ k, s1.m_capacity = 1024 * 2 ^ k) ∧ 1024 ≤ s1.m_capacity ∧
      s1.m_capacity ≤ s2.m_capacity := by
  have hnew : doubled_capacity (pomemstream.new palloc).m_capacity := ⟨0, by decide, rfl⟩
  have hd1 := run_capacity palloc ops1 _ s1 hnew h1
  have hd2 := run_capacity palloc ops2 s1 s2 hd1.1 h2
  obtain ⟨k, _, hk⟩ := hd1.1
  exact ⟨⟨k, hk⟩, hd1.2, hd2.2⟩

/-- C5 on `seek(1024)` followed by a `write` of three bytes: both return;
the seek reaches the capacity of the first block, whose 1024 bytes it copies
into a block of 2048; the capacity is 2048, that is `1024 * 2 ^ 1`, after the
seek, and not smaller after the write. -/
theorem capacity_doubled_witness :
    ∃ s1 s2, pomemstream.run palloc_zero [.seek 1024] (pomemstream.new palloc_zero) = .ok s1 ∧
      pomemstream.run palloc_zero [.write [1, 2, 3]] s1 = .ok s2 ∧
      s1.m_capacity = 2048 ∧
      (∃ k, s1.m_capacity = 1024 * 2 ^ k) ∧ 1024 ≤ s1.m_capacity ∧
      s1.m_capacity ≤ s2.m_capacity := by
  obtain ⟨s1, h1⟩ := run_returns palloc_zero never_fails_zero [.seek 1024] _
    (sound_new palloc_zero never_fails_zero) (by decide) (by simp [stays_inside])
  have hs1 := run_sound palloc_zero never_fails_zero [.seek 1024] _ s1 _
    (sound_new palloc_zero never_fails_zero) (holds_nothing _) (by decide) h1
  have hpos : s1.m_pos = 1024 := hs1.2.1
  obtain ⟨s2, h2⟩ := run_returns palloc_zero never_fails_zero [.write [1, 2, 3]] s1 hs1.1
    (by decide) (by rw [hpos]; simp [stays_inside])
  have hcap : s1.m_capacity = 2048 := by
    obtain ⟨s0, ha, hr⟩ := run_cons_inv palloc_zero _ _ _ _ h1
    have e : s0 = s1 := by simpa [pomemstream.run] using hr
    subst e
    have hf := (vseek_ok_fields palloc_zero _ s0 1024
      ((seek_outcome palloc_zero _ s0 1024).1 ha)).1
    have hg : grow_capacity GROW_FUEL (max 1024 (pomemstream.new palloc_zero).m_size)
        (pomemstream.new palloc_zero).m_capacity = some 2048 := by decide
    rw [if_pos (by decide), hg] at hf
    exact (Option.some.inj hf).symm
  exact ⟨s1, s2, h1, h2, hcap, capacity_doubled palloc_zero _ _ s1 s2 h1 h2⟩

/-! ## Consecutive writes and the read view -/

/-- The ideal store after consecutive writes of `bufs` from position `p`. -/
theorem effect_writes :
    ∀ (bufs : List (List UInt8)) (p : Nat) (m : Nat → Option UInt8),
      ((bufs.map Op.write).foldl Op.effect (p, m)).1 = p + bufs.flatten.length ∧
      ∀ i, ((bufs.map Op.write).foldl Op.effect (p, m)).2 i =
        if p ≤ i ∧ i < p + bufs.flatten.length then bufs.flatten[i - p]? else m i := by
  intro bufs
  induction bufs with
  | nil =>
    intro p m
    refine ⟨by simp, fun i => ?_⟩
    have : ¬ (p ≤ i ∧ i < p + ([] : List (List UInt8)).flatten.length) := by simp
    rw [if_neg this]
    rfl
  | cons b bufs ih =>
    intro p m
    obtain ⟨ih1, ih2⟩ := ih (p + b.length)
      (fun i => if p ≤ i ∧ i < p + b.length then b[i - p]? else m i)
    simp only [List.map_cons, List.foldl_cons, Op.effect, List.flatten_cons, List.length_append]
    refine ⟨by rw [ih1]; omega, fun i => ?_⟩
    rw [ih2]
    by_cases h1 : p + b.length ≤ i ∧ i < p + b.length + bufs.flatten.length
    · rw [if_pos h1, if_pos (by omega), List.getElem?_append_right (by omega)]
      congr 1
      omega
    · rw [if_neg h1]
      by_cases h2 : p ≤ i ∧ i < p + b.length
      · rw [if_pos h2, if_pos (by omega), List.getElem?_append_left (by omega)]
      · rw [if_neg h2, if_neg (by omega)]

theorem stays_inside_writes :
    ∀ (bufs : List (List UInt8)) (p size : Nat), p + bufs.flatten.length < 2 ^ 63 →
      stays_inside (bufs.map Op.write) p size := by
  intro bufs
  induction bufs with
  | nil => intro p size _; exact trivial
  | cons b bufs ih =>
    intro p size h
    simp only [List.flatten_cons, List.length_append] at h
    exact ⟨by omega, ih _ _ (by omega)⟩

theorem typed_writes (bufs : List (List UInt8)) (h : ∀ b ∈ bufs, b.length < UINT_MOD) :
    ∀ op ∈ bufs.map Op.write, op.typed := by
  intro op hop
  obtain ⟨b, hb, rfl⟩ := List.mem_map.1 hop
  exact h b hb

/-- Consecutive writes keep the size equal to the position. -/
theorem run_writes_size (palloc : Nat → Option (List UInt8)) (hp : never_fails palloc) :
    ∀ (bufs : List (List UInt8)) (s s1 : pomemstream), s.sound → s.m_size = s.m_pos →
      (∀ b ∈ bufs, b.length < UINT_MOD) →
      pomemstream.run palloc (bufs.map Op.write) s = .ok s1 → s1.m_size = s1.m_pos := by
  intro bufs
  induction bufs with
  | nil =>
    intro s s1 _ hsz _ h
    have : s = s1 := by simpa [pomemstream.run] using h
    subst this
    exact hsz
  | cons b bufs ih =>
    intro s s1 hs hsz hty h
    obtain ⟨s0, ha, hr⟩ := run_cons_inv palloc (.write b) (bufs.map Op.write) s s1 h
    have h0 := write_sound palloc hp s s0 b hs (hty b (List.mem_cons_self _ _)) ha
    exact ih s0 s1 h0.1 (by rw [h0.2.2.1, h0.2.1]; omega)
      (fun x hx => hty x (List.mem_cons_of_mem _ hx)) hr

/-- Consecutive writes of `bufs` on a fresh stream, with no allocation failing:
the run returns when the total stays below `2 ^ 63`, and then position and
`m_size` are the total length, `size()` is the total modulo `2 ^ 32`, the
capacity exceeds `m_size`, and the block starts with the bytes written. -/
theorem run_writes (palloc : Nat → Option (List UInt8)) (hp : never_fails palloc)
    (bufs : List (List UInt8)) (hty : ∀ b ∈ bufs, b.length < UINT_MOD) :
    (bufs.flatten.length < 2 ^ 63 →
      ∃ s, pomemstream.run palloc (bufs.map Op.write) (pomemstream.new palloc) = .ok s) ∧
    ∀ s, pomemstream.run palloc (bufs.map Op.write) (pomemstream.new palloc) = .ok s →
      s.tell = bufs.flatten.length ∧ s.m_size = bufs.flatten.length ∧
      s.size = bufs.flatten.length % UINT_MOD ∧ s.m_size < s.m_capacity ∧
      ∃ mem, s.memory = some mem ∧ mem.length = s.m_capacity ∧
        mem.take bufs.flatten.length = bufs.flatten := by
  constructor
  · intro hlt
    exact run_returns palloc hp _ _ (sound_new palloc hp) (typed_writes bufs hty)
      (stays_inside_writes bufs 0 0 (by simpa using hlt))
  · intro s hs
    obtain ⟨hsound, hpos, hholds⟩ := run_sound palloc hp _ _ s _ (sound_new palloc hp)
      (holds_nothing _) (typed_writes bufs hty) hs
    have hsz := run_writes_size palloc hp bufs _ s (sound_new palloc hp) rfl hty hs
    obtain ⟨e1, e2⟩ := effect_writes bufs 0 (fun _ => none)
    have hp0 : (pomemstream.new palloc).m_pos = 0 := rfl
    rw [hp0] at hpos hholds
    rw [e1, Nat.zero_add] at hpos
    obtain ⟨_, hlt, _, _, mem, hmem, hlen⟩ := hsound
    refine ⟨hpos, by rw [hsz, hpos], by unfold pomemstream.size; rw [hsz, hpos], hlt,
      mem, hmem, hlen, ?_⟩
    apply List.ext_getElem?
    intro i
    rw [List.getElem?_take]
    by_cases hi : i < bufs.flatten.length
    · rw [if_pos hi]
      obtain ⟨b, hb⟩ : ∃ b, bufs.flatten[i]? = some b :=
        ⟨bufs.flatten[i], List.getElem?_eq_getElem hi⟩
      have hm : ((bufs.map Op.write).foldl Op.effect (0, fun _ => none)).2 i = some b := by
        rw [e2, if_pos (by omega)]
        simpa using hb
      obtain ⟨_, mem2, hmem2, hget⟩ := hholds i b hm
      rw [hmem] at hmem2
      have : mem = mem2 := by simpa using hmem2
      subst this
      rw [hget, hb]
    · rw [if_neg hi, List.getElem?_eq_none (by omega)]

/-- Single-byte reads until one fails, `k` bytes before the end of the region:
they deliver those `k` bytes, `eof()` staying as it was, and the failed read
sets EOF. -/
theorem read_all_rest (f : Nat) (mem : List UInt8) (len : Nat) (hmem : len ≤ mem.length)
    (hlen : len + UINT_MOD ≤ POS_MOD) :
    ∀ (k p : Nat), p + k = len →
      pimemstream.read_all (k + 1) ⟨f, p, len, mem⟩ =
        some (((mem.drop p).take k).map (fun b => (b, eof f)),
          ⟨set_flag f FLAG_EOF, len, len, mem⟩) := by
  intro k
  induction k with
  | zero =>
    intro p hp
    have hend : p = len := by omega
    subst hend
    unfold pimemstream.read_all
    rw [read_byte_end ⟨f, p, p, mem⟩ 0 rfl hlen]
    simp
  | succ k ih =>
    intro p hp
    have hlt : p < len := by omega
    have hpm : p < mem.length := by omega
    rw [List.drop_eq_getElem_cons hpm, List.take_succ_cons, List.map_cons]
    unfold pimemstream.read_all
    rw [read_byte_at ⟨f, p, len, mem⟩ 0 mem[p] hlt hlen (List.getElem?_eq_getElem hpm)]
    simp only [ih (p + 1) (by omega)]
    rfl

/-- Round trip below 4 GiB: bytes written by consecutive calls to a fresh
`pomemstream`, fewer than `2 ^ 32` in all, are read back one by one from a
`pimemstream` constructed from it, in order, with `eof()` false after each of
them and true after the read that follows the last. -/
theorem roundtrip_below_uint (palloc : Nat → Option (List UInt8)) (hp : never_fails palloc)
    (bufs : List (List UInt8)) (hty : ∀ b ∈ bufs, b.length < UINT_MOD)
    (hlt : bufs.flatten.length < UINT_MOD) :
    ∃ s, pomemstream.run palloc (bufs.map Op.write) (pomemstream.new palloc) = .ok s ∧
      ∃ s1, (pimemstream.of_pomemstream s).read_all (bufs.flatten.length + 1) =
          some (bufs.flatten.map (fun b => (b, false)), s1) ∧ s1.eof = true := by
  have h := run_writes palloc hp bufs hty
  obtain ⟨s, hs⟩ := h.1 (by unfold UINT_MOD at hlt; omega)
  obtain ⟨_, hsz, hsize, hcap, mem, hmem, hml, htake⟩ := h.2 s hs
  rw [Nat.mod_eq_of_lt hlt] at hsize
  have hview : pimemstream.of_pomemstream s =
      ⟨FLAG_SEEKABLE, 0, bufs.flatten.length, mem⟩ := by
    unfold pimemstream.of_pomemstream
    rw [hsize, hmem]
    rfl
  have hr := read_all_rest FLAG_SEEKABLE mem bufs.flatten.length (by omega)
    (by unfold UINT_MOD POS_MOD at *; omega) bufs.flatten.length 0 (by omega)
  rw [List.drop_zero, htake] at hr
  refine ⟨s, hs, ⟨set_flag FLAG_SEEKABLE FLAG_EOF, bufs.flatten.length, bufs.flatten.length,
    mem⟩, ?_, eof_set_flag _⟩
  rw [hview, hr]
  rfl

/-- With no byte left, the first single-byte read fails and sets EOF. -/
theorem read_all_at_end (f p fuel : Nat) (mem : List UInt8) (hlen : p + UINT_MOD ≤ POS_MOD) :
    pimemstream.read_all (fuel + 1) ⟨f, p, p, mem⟩ =
      some ([], ⟨set_flag f FLAG_EOF, p, p, mem⟩) := by
  unfold pimemstream.read_all
  rw [read_byte_end ⟨f, p, p, mem⟩ 0 rfl hlen]

/-- Two writes of `2 ^ 31` bytes each on a fresh stream: they return with
position and `m_size` equal to `2 ^ 32`, `size()` is 0, and the first read from
a `pimemstream` constructed from the stream fails. -/
theorem two_writes_of_2G (palloc : Nat → Option (List UInt8)) (hp : never_fails palloc)
    (z1 z2 : List UInt8) (h1 : z1.length = 2 ^ 31) (h2 : z2.length = 2 ^ 31) :
    ∃ s, pomemstream.run palloc [.write z1, .write z2] (pomemstream.new palloc) = .ok s ∧
      s.tell = 2 ^ 32 ∧ s.m_size = 2 ^ 32 ∧ s.size = 0 ∧
      ∀ fuel, ∃ s1, (pimemstream.of_pomemstream s).read_all (fuel + 1) = some ([], s1) ∧
        s1.eof = true := by
  have hfl : [z1, z2].flatten.length = 2 ^ 32 := by
    simp only [List.flatten_cons, List.flatten_nil, List.length_append, List.length_nil, h1, h2]
    norm_num
  have hty : ∀ b ∈ [z1, z2], b.length < UINT_MOD := by
    intro b hb
    simp only [List.mem_cons, List.mem_singleton, List.not_mem_nil, or_false] at hb
    unfold UINT_MOD
    rcases hb with rfl | rfl <;> omega
  have h := run_writes palloc hp [z1, z2] hty
  obtain ⟨s, hs⟩ := h.1 (by rw [hfl]; norm_num)
  obtain ⟨htell, hsz, hsize, _, mem, hmem, _, _⟩ := h.2 s hs
  rw [hfl] at htell hsz hsize
  have hsize0 : s.size = 0 := by rw [hsize]; unfold UINT_MOD; norm_num
  refine ⟨s, hs, htell, hsz, hsize0, fun fuel => ?_⟩
  have hview : pimemstream.of_pomemstream s = ⟨FLAG_SEEKABLE, 0, 0, mem⟩ := by
    unfold pimemstream.of_pomemstream
    rw [hsize0, hmem]
    rfl
  have hl : (0 : Nat) + UINT_MOD ≤ POS_MOD := by unfold UINT_MOD POS_MOD; norm_num
  refine ⟨⟨set_flag FLAG_SEEKABLE FLAG_EOF, 0, 0, mem⟩, ?_, eof_set_flag _⟩
  rw [hview]
  exact read_all_at_end FLAG_SEEKABLE 0 fuel mem hl

/-! ## The 32-bit `size()`: C2, C4 -/

/-- C2 at a sequence of `2 ^ 32` bytes written by two calls of `2 ^ 31` bytes:
the writes return with `2 ^ 32` bytes stored, and the first single-byte read
from a `pimemstream` constructed from the stream already fails with `eof()`
true, so none of the bytes is read back. -/
theorem roundtrip_fails_at_4G :
    ∃ s, pomemstream.run palloc_zero
        [.write (List.replicate (2 ^ 31) 0), .write (List.replicate (2 ^ 31) 0)]
        (pomemstream.new palloc_zero) = .ok s ∧
      s.m_size = 2 ^ 32 ∧ (pimemstream.of_pomemstream s).m_len = 0 ∧
      ∀ fuel, ∃ s1, (pimemstream.of_pomemstream s).read_all (fuel + 1) = some ([], s1) ∧
        s1.eof = true := by
  obtain ⟨s, hs, _, hsz, hsize, hread⟩ := two_writes_of_2G palloc_zero never_fails_zero
    (List.replicate (2 ^ 31) 0) (List.replicate (2 ^ 31) 0)
    (List.length_replicate _ _) (List.length_replicate _ _)
  exact ⟨s, hs, hsz, hsize, hread⟩

/-- C4 at two writes of `2 ^ 31` bytes each: they return with `tell()` and
`m_size` equal to the sum `2 ^ 32`, while `size()` is 0. -/
theorem size_wraps_at_4G :
    ∃ s, pomemstream.run palloc_zero
        [.write (List.replicate (2 ^ 31) 0), .write (List.replicate (2 ^ 31) 0)]
        (pomemstream.new palloc_zero) = .ok s ∧
      s.tell = 2 ^ 32 ∧ s.m_size = 2 ^ 32 ∧ s.size = 0 ∧
      s.size ≠ (List.replicate (2 ^ 31) (0 : UInt8)).length +
        (List.replicate (2 ^ 31) (0 : UInt8)).length := by
  obtain ⟨s, hs, htell, hsz, hsize, _⟩ := two_writes_of_2G palloc_zero never_fails_zero
    (List.replicate (2 ^ 31) 0) (List.replicate (2 ^ 31) 0)
    (List.length_replicate _ _) (List.length_replicate _ _)
  refine ⟨s, hs, htell, hsz, hsize, ?_⟩
  rw [hsize, List.length_replicate]
  norm_num

/-! ## Lines: C6, C7 -/

/-- C6: on a `pimemstream` over lines `L1..Lk` without LF and CR bytes, each
followed by LF or CR LF, and an optional unterminated non-empty last line,
successive `readline` calls return true with `L1, ..., Lk` in order, none of
which holds a carriage return, and the call after them returns false. -/
theorem readline_delivers_lines (lines : List (List UInt8 × Ending)) (last : List UInt8)
    (fuel : Nat)
    (hlines : ∀ l ∈ lines, ∀ b ∈ l.1, b ≠ 10 ∧ b ≠ 13)
    (hlast : ∀ b ∈ last, b ≠ 10 ∧ b ≠ 13)
    (hsize : (encode_lines lines ++ last).length + UINT_MOD ≤ POS_MOD)
    (hfuel : (encode_lines lines ++ last).length ≤ fuel) :
    (pimemstream.new (encode_lines lines ++ last)
        (encode_lines lines ++ last).length).readlines fuel
        ((expected_lines lines last).length + 1)
      = some ((expected_lines lines last).map (fun l => (true, l)) ++ [(false, [])])
    ∧ ∀ l ∈ expected_lines lines last, (13 : UInt8) ∉ l := by
  constructor
  · exact readlines_lines last fuel hlast lines [] _ FLAG_SEEKABLE (by simp) hlines hfuel hsize
  · intro l hl h13
    unfold expected_lines at hl
    rcases List.mem_append.1 hl with hl | hl
    · obtain ⟨x, hx, rfl⟩ := List.mem_map.1 hl
      exact (hlines x hx 13 h13).2 rfl
    · by_cases he : last = []
      · simp [he] at hl
      · simp only [if_neg he, List.mem_singleton] at hl
        subst hl
        exact (hlast 13 h13).2 rfl

/-- C6 at the text `a CR LF b LF c`: the lines are `a`, `b`, `c`, and the
fourth call reports that no data is left. -/
theorem readline_delivers_lines_witness :
    (pimemstream.new [97, 13, 10, 98, 10, 99] 6).readlines 6 4
      = some [(true, [97]), (true, [98]), (true, [99]), (false, [])] :=
  (readline_delivers_lines [([97], Ending.crlf), ([98], Ending.lf)] [99] 6
    (by decide) (by decide) (by decide) (by decide)).1

/-- C7: `readline` on a `pimemstream` returns false exactly when no byte is
left, and then the line is empty; with a single LF left it returns true with
an empty line. -/
theorem readline_false_iff_exhausted (s : pimemstream) (fuel : Nat)
    (hpos : s.m_pos ≤ s.m_len) (hlen : s.m_len + UINT_MOD ≤ POS_MOD)
    (hfuel : s.m_len - s.m_pos ≤ fuel) :
    ∃ b line s1, s.readline fuel = some (b, line, s1) ∧
      (b = false ↔ s.m_pos = s.m_len) ∧ (b = false → line = []) ∧
      (s.m_pos + 1 = s.m_len → s.m_mem[s.m_pos]? = some 10 → b = true ∧ line = []) := by
  by_cases hend : s.m_pos = s.m_len
  · refine ⟨false, [], _, readline_at_end s fuel hend hlen, by simp [hend], by simp, ?_⟩
    intro h; omega
  · have hlt : s.m_pos < s.m_len := by omega
    obtain ⟨line, s1, hloop⟩ := readline_loop_returns fuel
      { m_flags := s.m_flags, m_pos := s.m_pos + 1, m_len := s.m_len, m_mem := s.m_mem }
      ((s.m_mem.drop s.m_pos).headD 0) [] (by show s.m_pos + 1 ≤ s.m_len; omega) hlen
      (by show s.m_len - (s.m_pos + 1) < fuel; omega)
    have hrl : s.readline fuel = some (true, line, s1) := by
      unfold pimemstream.readline pistream.readline
      rw [read_byte_lt s 0 hlt hlen]
      simp only [hloop]
    refine ⟨true, line, s1, hrl, by simp [hend], by simp, ?_⟩
    intro h1 h10
    refine ⟨rfl, ?_⟩
    have hc : (s.m_mem.drop s.m_pos).headD 0 = 10 := by
      rw [List.headD_eq_head?_getD, List.head?_drop, h10]
      rfl
    rw [hc] at hloop
    obtain ⟨k, rfl⟩ : ∃ k, fuel = k + 1 := ⟨fuel - 1, by omega⟩
    simp [pistream.readline_loop] at hloop
    exact hloop.1

/-- C7 on the one-byte text `LF`: the first call returns true with an empty
line. -/
theorem readline_false_iff_exhausted_witness :
    ∃ b line s1, (pimemstream.new [10] 1).readline 1 = some (b, line, s1) ∧
      (b = false ↔ (pimemstream.new [10] 1).m_pos = (pimemstream.new [10] 1).m_len) ∧
      (b = false → line = []) ∧
      ((pimemstream.new [10] 1).m_pos + 1 = (pimemstream.new [10] 1).m_len →
        (pimemstream.new [10] 1).m_mem[(pimemstream.new [10] 1).m_pos]? = some 10 →
        b = true ∧ line = []) :=
  readline_false_iff_exhausted (pimemstream.new [10] 1) 1 (by decide) (by decide) (by decide)

/-! ## Reading and seeking a `pimemstream`: C8, C9 -/

/-- C8: with `position <= length`, `read(buf, n)` returns
`r = min(n, length - position)`, stores bytes `[position, position + r)` of the
region at the start of `buf`, advances the position by `r`, sets the EOF flag
when `r < n` and leaves the flag word as it was when `r = n`. -/
theorem read_clamps (s : pimemstream) (buf : List UInt8) (n : Nat)
    (hpos : s.m_pos ≤ s.m_len) (hlen : s.m_len + UINT_MOD ≤ POS_MOD) (hn : n < UINT_MOD)
    (hmem : s.m_len ≤ s.m_mem.length) (hbuf : n ≤ buf.length) :
    (s.read buf n).1 = min n (s.m_len - s.m_pos) ∧
    (s.read buf n).1 ≤ n ∧
    (s.read buf n).2.1 =
      (s.m_mem.drop s.m_pos).take (min n (s.m_len - s.m_pos)) ++
        buf.drop (min n (s.m_len - s.m_pos)) ∧
    (s.read buf n).2.2.m_pos = s.m_pos + min n (s.m_len - s.m_pos) ∧
    (s.read buf n).2.2.m_len = s.m_len ∧
    (s.read buf n).2.2.m_mem = s.m_mem ∧
    (min n (s.m_len - s.m_pos) < n →
      (s.read buf n).2.2.m_flags = set_flag s.m_flags FLAG_EOF ∧
      (s.read buf n).2.2.m_flags &&& FLAG_EOF ≠ 0) ∧
    (min n (s.m_len - s.m_pos) = n → (s.read buf n).2.2.m_flags = s.m_flags) ∧
    (((s.read buf n).2.2.m_flags &&& FLAG_EOF ≠ 0) ↔
      (min n (s.m_len - s.m_pos) < n ∨ s.m_flags &&& FLAG_EOF ≠ 0)) := by
  have hv := vread_eq s buf n hpos hlen hn
  unfold pimemstream.read
  rw [hv]
  have hbufcopy : (if min n (s.m_len - s.m_pos) > 0 then
        memcpy buf 0 (s.m_mem.drop s.m_pos) (min n (s.m_len - s.m_pos)) else buf) =
      (s.m_mem.drop s.m_pos).take (min n (s.m_len - s.m_pos)) ++
        buf.drop (min n (s.m_len - s.m_pos)) := by
    by_cases h0 : min n (s.m_len - s.m_pos) > 0
    · rw [if_pos h0]
      exact memcpy_zero_eq _ _ _ (by rw [List.length_drop]; omega) (by omega)
    · have : min n (s.m_len - s.m_pos) = 0 := by omega
      rw [if_neg h0, this]
      simp
  have hset : set_flag s.m_flags FLAG_EOF &&& FLAG_EOF ≠ 0 := by
    rw [and_set_flag_self]; decide
  refine ⟨rfl, Nat.min_le_left _ _, hbufcopy, rfl, rfl, rfl, ?_, ?_, ?_⟩
  · intro hr
    rw [if_pos hr]
    exact ⟨rfl, hset⟩
  · intro hr
    have : ¬ min n (s.m_len - s.m_pos) < n := by omega
    rw [if_neg this]
  · by_cases hr : min n (s.m_len - s.m_pos) < n
    · rw [if_pos hr]
      exact ⟨fun _ => Or.inl hr, fun _ => hset⟩
    · rw [if_neg hr]
      exact ⟨fun h => Or.inr h, fun h => h.resolve_left hr⟩

/-- C8 on a three-byte region read from offset 1 with a request of 5: two
bytes arrive and EOF is set. -/
theorem read_clamps_witness :
    ((⟨FLAG_SEEKABLE, 1, 3, [7, 8, 9]⟩ : pimemstream).read [0, 0, 0, 0, 0] 5).1 = 2 ∧
    ((⟨FLAG_SEEKABLE, 1, 3, [7, 8, 9]⟩ : pimemstream).read [0, 0, 0, 0, 0] 5).2.1
      = [8, 9, 0, 0, 0] ∧
    ((⟨FLAG_SEEKABLE, 1, 3, [7, 8, 9]⟩ : pimemstream).read [0, 0, 0, 0, 0] 5).2.2.m_pos = 3 ∧
    ((⟨FLAG_SEEKABLE, 1, 3, [7, 8, 9]⟩ : pimemstream).read [0, 0, 0, 0, 0] 5).2.2.m_flags
      &&& FLAG_EOF ≠ 0 :=
  have h := read_clamps ⟨FLAG_SEEKABLE, 1, 3, [7, 8, 9]⟩ [0, 0, 0, 0, 0] 5
    (by decide) (by decide) (by decide) (by decide) (by decide)
  ⟨h.1, h.2.2.1, h.2.2.2.1, (h.2.2.2.2.2.2.1 (by decide)).2⟩

/-- C9: on a seekable `pimemstream` of length `len`, `seek(n)` with `n > len`
leaves `tell() = len` with the EOF flag clear, a following `read(buf, m)` with
`m >= 1` returns 0 and leaves `eof()` true; `seek(n)` with `n <= len` leaves
`tell() = n`. -/
theorem seek_clamps (s : pimemstream) (n m : Nat) (buf : List UInt8)
    (hseek : seekable s.m_flags = true) (hlen : s.m_len + UINT_MOD ≤ POS_MOD)
    (hm1 : 1 ≤ m) (hm : m < UINT_MOD) :
    ∃ s1, s.seek n = .ok s1 ∧ s1.m_flags &&& FLAG_EOF = 0 ∧
      (n > s.m_len → s1.tell = s.m_len ∧ (s1.read buf m).1 = 0 ∧
        (s1.read buf m).2.2.eof = true) ∧
      (n ≤ s.m_len → s1.tell = n) := by
  refine ⟨{ m_flags := clear_flag s.m_flags FLAG_EOF,
            m_pos := if n ≥ s.m_len then s.m_len else n,
            m_len := s.m_len, m_mem := s.m_mem }, ?_, ?_, ?_, ?_⟩
  · unfold pimemstream.seek pstream.seek
    rw [check_seekable_of_seekable _ hseek]
    rfl
  · show clear_flag s.m_flags FLAG_EOF &&& FLAG_EOF = 0
    rw [and_clear_flag]
    have : ((UINT_MOD - 1) ^^^ FLAG_EOF) &&& FLAG_EOF = 0 := by decide
    rw [this, Nat.and_zero]
  · intro hn
    have hge : n ≥ s.m_len := by omega
    simp only [if_pos hge]
    have hv := vread_eq
      { m_flags := clear_flag s.m_flags FLAG_EOF, m_pos := s.m_len, m_len := s.m_len,
        m_mem := s.m_mem } buf m (Nat.le_refl _) hlen hm
    have h0 : min m (s.m_len - s.m_len) = 0 := by omega
    simp only [h0] at hv
    have hlt : 0 < m := by omega
    simp only [if_pos hlt] at hv
    unfold pimemstream.read
    rw [hv]
    exact ⟨rfl, rfl, eof_set_flag _⟩
  · intro hn
    by_cases hge : n ≥ s.m_len
    · have : n = s.m_len := by omega
      simp [pimemstream.tell, pimemstream.vtell, this]
    · simp [pimemstream.tell, pimemstream.vtell, hge]

/-- C9 on a three-byte stream: `seek(5)` leaves `tell() = 3`, and reading one
byte then returns 0 with `eof()` true. -/
theorem seek_clamps_witness :
    ∃ s1, (pimemstream.new [1, 2, 3] 3).seek 5 = .ok s1 ∧ s1.m_flags &&& FLAG_EOF = 0 ∧
      (5 > (pimemstream.new [1, 2, 3] 3).m_len →
        s1.tell = (pimemstream.new [1, 2, 3] 3).m_len ∧ (s1.read [0] 1).1 = 0 ∧
        (s1.read [0] 1).2.2.eof = true) ∧
      (5 ≤ (pimemstream.new [1, 2, 3] 3).m_len → s1.tell = 5) :=
  seek_clamps (pimemstream.new [1, 2, 3] 3) 5 1 [0] (by decide) (by decide) (by decide)
    (by decide)

/-! ## The seekability check: C10 -/

/-- C10: on a stream of any class whose seekable flag is clear, `seek(n)`
throws "stream is not seekable" with the object as it was before the call,
whatever the concrete `vseek` is. -/
theorem seek_not_seekable {σ : Type} (flags : σ → Nat) (vseek : σ → Nat → Outcome σ)
    (s : σ) (n : Nat) (h : seekable (flags s) = false) :
    pstream.seek flags vseek s n = .throws "stream is not seekable" s := by
  unfold pstream.seek
  rw [check_seekable_of_not_seekable _ h]

/-- C10 on a `pimemstream` whose flag word holds only EOF: `seek(2)` throws
and position and flags stay. -/
theorem seek_not_seekable_witness :
    pstream.seek pimemstream.m_flags pimemstream.vseek ⟨FLAG_EOF, 1, 3, [1, 2, 3]⟩ 2
      = .throws "stream is not seekable" ⟨FLAG_EOF, 1, 3, [1, 2, 3]⟩ :=
  seek_not_seekable pimemstream.m_flags pimemstream.vseek ⟨FLAG_EOF, 1, 3, [1, 2, 3]⟩ 2
    (by decide)

/-! ## Allocation failure in `vwrite`: C11 -/

/-- A `vwrite` that has to grow and gets a null pointer for the new block
returns with the error flag set and position and size as before, but with the
capacity already raised and `m_mem` null. -/
theorem vwrite_alloc_fails (palloc : Nat → Option (List UInt8)) (s : pomemstream)
    (buf : List UInt8) (n c1 : Nat) (hg : (s.m_pos + n) % POS_MOD ≥ s.m_capacity)
    (hgc : grow_capacity GROW_FUEL ((s.m_pos + n) % POS_MOD) s.m_capacity = some c1)
    (hb : palloc c1 = none) :
    s.vwrite palloc buf n
      = .ok ⟨set_flag s.m_flags FLAG_ERROR, s.m_pos, c1, s.m_size, none⟩ ∧
    s.m_capacity < c1 ∧ bad (set_flag s.m_flags FLAG_ERROR) = true := by
  refine ⟨?_, ?_, ?_⟩
  · unfold pomemstream.vwrite
    rw [if_pos hg, hgc]
    simp only [hb]
  · have := grow_capacity_exit _ _ _ _ hgc
    omega
  · unfold bad
    rw [and_set_flag_self]
    rfl

/-- C11 on a stream holding the three bytes 1, 2, 3 in its first block of 1024
bytes, with an allocator that fails above 1024 bytes: a write of 1024 bytes sets
the error flag and leaves position 3 and size 3, but the capacity is 2048
instead of 1024 and `memory()` is null instead of the block with 1, 2, 3. -/
theorem failed_growth_loses_buffer :
    pomemstream.run (palloc_upto 1024) [.write [1, 2, 3]] (pomemstream.new (palloc_upto 1024))
      = .ok ⟨FLAG_SEEKABLE, 3, 1024, 3, some (1 :: 2 :: 3 :: List.replicate 1021 0)⟩ ∧
    (⟨FLAG_SEEKABLE, 3, 1024, 3, some (1 :: 2 :: 3 :: List.replicate 1021 0)⟩ :
        pomemstream).write (palloc_upto 1024) (List.replicate 1024 7) 1024
      = .ok ⟨FLAG_SEEKABLE ||| FLAG_ERROR, 3, 2048, 3, none⟩ ∧
    bad (FLAG_SEEKABLE ||| FLAG_ERROR) = true ∧
    (⟨FLAG_SEEKABLE ||| FLAG_ERROR, 3, 2048, 3, none⟩ : pomemstream).m_capacity ≠ 1024 ∧
    (⟨FLAG_SEEKABLE ||| FLAG_ERROR, 3, 2048, 3, none⟩ : pomemstream).memory = none := by
  refine ⟨by rfl, ?_, by decide, by decide, rfl⟩
  have h := (vwrite_alloc_fails (palloc_upto 1024)
    ⟨FLAG_SEEKABLE, 3, 1024, 3, some (1 :: 2 :: 3 :: List.replicate 1021 0)⟩
    (List.replicate 1024 7) 1024 2048 (by decide) (by decide) (by decide)).1
  exact h

/-! ## Flag transitions -/

theorem or_ne_zero_left (x y : Nat) (h : x ≠ 0) : x ||| y ≠ 0 := by
  obtain ⟨i, hi⟩ := Nat.ne_zero_implies_bit_true h
  intro h0
  have : (x ||| y).testBit i = true := by rw [Nat.testBit_or, hi]; rfl
  rw [h0, Nat.zero_testBit] at this
  exact Bool.false_ne_true this

theorem and_set_flag_ne_zero (f a b : Nat) (h : f &&& b ≠ 0) : set_flag f a &&& b ≠ 0 := by
  unfold set_flag
  rw [Nat.and_distrib_right]
  exact or_ne_zero_left _ _ h

theorem sticky_refl (f : Nat) : sticky f f := ⟨fun h => h, fun h => h⟩

theorem sticky_trans {f f1 f2 : Nat} (h1 : sticky f f1) (h2 : sticky f1 f2) : sticky f f2 :=
  ⟨fun h => h2.1 (h1.1 h), fun h => h2.2 (h1.2 h)⟩

theorem sticky_set_flag (f a : Nat) : sticky f (set_flag f a) :=
  ⟨and_set_flag_ne_zero f a _, and_set_flag_ne_zero f a _⟩

theorem sticky_clear_eof (f : Nat) : sticky f (clear_flag f FLAG_EOF) := by
  have h1 : ((UINT_MOD - 1) ^^^ FLAG_EOF) &&& FLAG_ERROR = FLAG_ERROR := by decide
  have h2 : ((UINT_MOD - 1) ^^^ FLAG_EOF) &&& FLAG_CLOSED = FLAG_CLOSED := by decide
  constructor
  · intro h
    rw [and_clear_flag, h1]
    exact h
  · intro h
    rw [and_clear_flag, h2]
    exact h

theorem eof_stays_refl (f : Nat) : eof_stays f f := fun h => h

theorem eof_stays_trans {f f1 f2 : Nat} (h1 : eof_stays f f1) (h2 : eof_stays f1 f2) :
    eof_stays f f2 := fun h => h2 (h1 h)

theorem eof_stays_set_flag (f a : Nat) : eof_stays f (set_flag f a) :=
  and_set_flag_ne_zero f a _

/-- Flags after `pifilestream::vread`. -/
theorem pifilestream_vread_flags {H W : Type} (os : CLib H W) (s : pifilestream H)
    (buf : List UInt8) (n : Nat) (w : W) :
    sticky s.m_flags (s.vread os buf n w).2.2.1.m_flags ∧
    eof_stays s.m_flags (s.vread os buf n w).2.2.1.m_flags := by
  unfold pifilestream.vread
  simp only
  split_ifs
  · exact ⟨sticky_trans (sticky_set_flag _ _) (sticky_set_flag _ _),
      eof_stays_trans (eof_stays_set_flag _ _) (eof_stays_set_flag _ _)⟩
  · exact ⟨sticky_set_flag _ _, eof_stays_set_flag _ _⟩
  · exact ⟨sticky_set_flag _ _, eof_stays_set_flag _ _⟩
  · exact ⟨sticky_refl _, eof_stays_refl _⟩
  · exact ⟨sticky_refl _, eof_stays_refl _⟩

/-- Flags after `pifilestream::vseek`, returning or throwing. -/
theorem pifilestream_vseek_flags {H W : Type} (os : CLib H W) (s s1 : pifilestream H)
    (n : Nat) (w w1 : W)
    (h : s.vseek os n w = .ok (s1, w1) ∨ ∃ msg, s.vseek os n w = .throws msg (s1, w1)) :
    sticky s.m_flags s1.m_flags := by
  unfold pifilestream.vseek at h
  cases hc : check_seekable s.m_flags with
  | error e =>
    rw [hc] at h
    rcases h with h | ⟨msg, h⟩
    · simp at h
    · simp only [Outcome.throws.injEq, Prod.mk.injEq] at h
      rw [← h.2.1]
      exact sticky_refl _
  | ok u =>
    rw [hc] at h
    rcases h with h | ⟨msg, h⟩
    · simp only [Outcome.ok.injEq, Prod.mk.injEq] at h
      rw [← h.1]
      simp only
      split_ifs <;>
        first
        | exact sticky_trans (sticky_set_flag _ _)
            (sticky_trans (sticky_set_flag _ _) (sticky_set_flag _ _))
        | exact sticky_trans (sticky_set_flag _ _) (sticky_set_flag _ _)
        | exact sticky_trans (sticky_set_flag _ _)
            (sticky_trans (sticky_clear_eof _) (sticky_set_flag _ _))
        | exact sticky_trans (sticky_set_flag _ _) (sticky_clear_eof _)
        | exact sticky_trans (sticky_clear_eof _) (sticky_set_flag _ _)
        | exact sticky_set_flag _ _
        | exact sticky_clear_eof _
    · simp at h

/-- The public `seek` either throws on the state it was called on, or is the
concrete `vseek`. -/
theorem pstream_seek_cases {σ : Type} (flags : σ → Nat) (vseek : σ → Nat → Outcome σ)
    (s : σ) (n : Nat) :
    pstream.seek flags vseek s n = .throws "stream is not seekable" s ∨
    pstream.seek flags vseek s n = vseek s n := by
  unfold pstream.seek check_seekable
  split_ifs
  · exact Or.inl rfl
  · exact Or.inr rfl

/-- Flags after the public `seek` of a `pifilestream`. -/
theorem pifilestream_seek_flags {H W : Type} (os : CLib H W) (s s1 : pifilestream H)
    (n : Nat) (w w1 : W)
    (h : s.seek os n w = .ok (s1, w1) ∨ ∃ msg, s.seek os n w = .throws msg (s1, w1)) :
    sticky s.m_flags s1.m_flags := by
  unfold pifilestream.seek at h
  rcases pstream_seek_cases (fun sw : pifilestream H × W => sw.1.m_flags)
      (fun sw k => pifilestream.vseek os sw.1 k sw.2) (s, w) n with hc | hc
  · rw [hc] at h
    rcases h with h | ⟨msg, h⟩
    · simp at h
    · simp only [Outcome.throws.injEq, Prod.mk.injEq] at h
      rw [← h.2.1]
      exact sticky_refl _
  · rw [hc] at h
    exact pifilestream_vseek_flags os s s1 n w w1 h

/-- Flags after `pofilestream::vwrite`. -/
theorem pofilestream_vwrite_flags {H W : Type} (os : CLib H W) (s : pofilestream H)
    (buf : List UInt8) (n : Nat) (w : W) :
    sticky s.m_flags (s.vwrite os buf n w).1.m_flags ∧
    eof_stays s.m_flags (s.vwrite os buf n w).1.m_flags := by
  unfold pofilestream.vwrite
  simp only
  split_ifs
  · exact ⟨sticky_set_flag _ _, eof_stays_set_flag _ _⟩
  · exact ⟨sticky_refl _, eof_stays_refl _⟩
  · exact ⟨sticky_refl _, eof_stays_refl _⟩

/-- Flags after `pofilestream::vseek`, returning or throwing. -/
theorem pofilestream_vseek_flags {H W : Type} (os : CLib H W) (s s1 : pofilestream H)
    (n : Nat) (w w1 : W)
    (h : s.vseek os n w = .ok (s1, w1) ∨ ∃ msg, s.vseek os n w = .throws msg (s1, w1)) :
    sticky s.m_flags s1.m_flags ∧ eof_stays s.m_flags s1.m_flags := by
  unfold pofilestream.vseek at h
  cases hc : check_seekable s.m_flags with
  | error e =>
    rw [hc] at h
    rcases h with h | ⟨msg, h⟩
    · simp at h
    · simp only [Outcome.throws.injEq, Prod.mk.injEq] at h
      rw [← h.2.1]
      exact ⟨sticky_refl _, eof_stays_refl _⟩
  | ok u =>
    rw [hc] at h
    rcases h with h | ⟨msg, h⟩
    · simp only at h
      split_ifs at h
      · simp only [Outcome.ok.injEq, Prod.mk.injEq] at h
        rw [← h.1]
        exact ⟨sticky_set_flag _ _, eof_stays_set_flag _ _⟩
      · simp only [Outcome.ok.injEq, Prod.mk.injEq] at h
        rw [← h.1]
        exact ⟨sticky_set_flag _ _, eof_stays_set_flag _ _⟩
      · simp only [Outcome.ok.injEq, Prod.mk.injEq] at h
        rw [← h.1]
        exact ⟨sticky_refl _, eof_stays_refl _⟩
    · simp only at h
      split_ifs at h

/-- Flags after the public `seek` of a `pofilestream`. -/
theorem pofilestream_seek_flags {H W : Type} (os : CLib H W) (s s1 : pofilestream H)
    (n : Nat) (w w1 : W)
    (h : s.seek os n w = .ok (s1, w1) ∨ ∃ msg, s.seek os n w = .throws msg (s1, w1)) :
    sticky s.m_flags s1.m_flags := by
  unfold pofilestream.seek at h
  rcases pstream_seek_cases (fun sw : pofilestream H × W => sw.1.m_flags)
      (fun sw k => pofilestream.vseek os sw.1 k sw.2) (s, w) n with hc | hc
  · rw [hc] at h
    rcases h with h | ⟨msg, h⟩
    · simp at h
    · simp only [Outcome.throws.injEq, Prod.mk.injEq] at h
      rw [← h.2.1]
      exact sticky_refl _
  · rw [hc] at h
    exact (pofilestream_vseek_flags os s s1 n w w1 h).1

/-- Flags after `pimemstream::vread`. -/
theorem pimemstream_vread_flags (s : pimemstream) (buf : List UInt8) (n : Nat) :
    sticky s.m_flags (s.vread buf n).2.2.m_flags ∧
    eof_stays s.m_flags (s.vread buf n).2.2.m_flags := by
  unfold pimemstream.vread
  simp only
  split_ifs <;>
    first
    | exact ⟨sticky_set_flag _ _, eof_stays_set_flag _ _⟩
    | exact ⟨sticky_refl _, eof_stays_refl _⟩

/-- Flags after the public `seek` of a `pimemstream`. -/
theorem pimemstream_seek_flags (s s1 : pimemstream) (n : Nat)
    (h : s.seek n = .ok s1 ∨ ∃ msg, s.seek n = .throws msg s1) :
    sticky s.m_flags s1.m_flags := by
  unfold pimemstream.seek at h
  rcases pstream_seek_cases pimemstream.m_flags pimemstream.vseek s n with hc | hc
  · rw [hc] at h
    rcases h with h | ⟨msg, h⟩
    · simp at h
    · simp only [Outcome.throws.injEq] at h
      rw [← h.2]
      exact sticky_refl _
  · rw [hc] at h
    unfold pimemstream.vseek at h
    rcases h with h | ⟨msg, h⟩
    · simp only [Outcome.ok.injEq] at h
      rw [← h]
      exact sticky_clear_eof _
    · simp at h

/-- The flag word after a `vwrite` of a `pomemstream` that returns. -/
theorem vwrite_ok_flags (palloc : Nat → Option (List UInt8)) (s s1 : pomemstream)
    (buf : List UInt8) (n : Nat) (h : s.vwrite palloc buf n = .ok s1) :
    s1.m_flags = s.m_flags ∨ s1.m_flags = set_flag s.m_flags FLAG_ERROR := by
  unfold pomemstream.vwrite at h
  split at h
  · split at h
    · simp at h
    · split at h
      · simp only [Outcome.ok.injEq] at h
        rw [← h]
        exact Or.inr rfl
      · split at h
        · simp at h
        · simp only [Outcome.ok.injEq] at h
          rw [← h]
          exact Or.inl rfl
  · split at h
    · simp at h
    · simp only [Outcome.ok.injEq] at h
      rw [← h]
      exact Or.inl rfl

/-- The flag word after a `vseek` of a `pomemstream` that returns. -/
theorem vseek_ok_flags (palloc : Nat → Option (List UInt8)) (s s1 : pomemstream)
    (n : Nat) (h : s.vseek palloc n = .ok s1) :
    s1.m_flags = s.m_flags ∨ s1.m_flags = set_flag s.m_flags FLAG_ERROR := by
  simp only [pomemstream.vseek] at h
  split at h
  · split at h
    · simp at h
    · split at h
      · simp only [Outcome.ok.injEq] at h
        rw [← h]
        exact Or.inr rfl
      · split at h
        · simp at h
        · split at h
          · simp only [Outcome.ok.injEq] at h
            rw [← h]
            exact Or.inl rfl
          · simp at h
  · simp only [Outcome.ok.injEq] at h
    rw [← h]
    exact Or.inl rfl

/-- Flags after a public call on a `pomemstream` that returns or throws. -/
theorem pomemstream_apply_flags (palloc : Nat → Option (List UInt8)) (s s1 : pomemstream)
    (op : Op)
    (h : s.apply palloc op = .ok s1 ∨ ∃ msg, s.apply palloc op = .throws msg s1) :
    sticky s.m_flags s1.m_flags ∧ eof_stays s.m_flags s1.m_flags := by
  have key : s1.m_flags = s.m_flags ∨ s1.m_flags = set_flag s.m_flags FLAG_ERROR := by
    rcases h with h | ⟨msg, h⟩
    · cases op with
      | write buf => exact vwrite_ok_flags palloc s s1 buf buf.length h
      | seek n => exact vseek_ok_flags palloc s s1 n ((seek_outcome palloc s s1 n).1 h)
    · cases op with
      | write buf => exact absurd h (vwrite_not_throws palloc s s1 buf buf.length msg)
      | seek n =>
        have := (seek_outcome palloc s s1 n).2 msg h
        subst this
        exact Or.inl rfl
  rcases key with e | e <;> rw [e]
  · exact ⟨sticky_refl _, eof_stays_refl _⟩
  · exact ⟨sticky_set_flag _ _, eof_stays_set_flag _ _⟩

/-! ## Flag transition rules: C12 -/

/-- C12: for every stream class and each of read, write, seek and close (tell is
a function of the state and changes nothing), over any behaviour of the C
library and of the allocator: an error flag or closed flag that is set before
the call is set after it, whether the call returns or throws, and an EOF flag
that is set before a call other than seek is set after it. -/
theorem flag_transitions {H W : Type} (os : CLib H W) (palloc : Nat → Option (List UInt8)) :
    (∀ (s : pifilestream H) (buf : List UInt8) (n : Nat) (w : W),
      sticky s.m_flags (s.read os buf n w).2.2.1.m_flags ∧
      eof_stays s.m_flags (s.read os buf n w).2.2.1.m_flags) ∧
    (∀ (s s1 : pifilestream H) (n : Nat) (w w1 : W),
      (s.seek os n w = .ok (s1, w1) ∨ ∃ msg, s.seek os n w = .throws msg (s1, w1)) →
      sticky s.m_flags s1.m_flags) ∧
    (∀ (s : pifilestream H) (w : W),
      sticky s.m_flags (s.close os w).1.m_flags ∧
      eof_stays s.m_flags (s.close os w).1.m_flags) ∧
    (∀ (s : pofilestream H) (buf : List UInt8) (n : Nat) (w : W),
      sticky s.m_flags (s.write os buf n w).1.m_flags ∧
      eof_stays s.m_flags (s.write os buf n w).1.m_flags) ∧
    (∀ (s s1 : pofilestream H) (n : Nat) (w w1 : W),
      (s.seek os n w = .ok (s1, w1) ∨ ∃ msg, s.seek os n w = .throws msg (s1, w1)) →
      sticky s.m_flags s1.m_flags) ∧
    (∀ (s : pofilestream H) (w : W),
      sticky s.m_flags (s.close os w).1.m_flags ∧
      eof_stays s.m_flags (s.close os w).1.m_flags) ∧
    (∀ (s : pimemstream) (buf : List UInt8) (n : Nat),
      sticky s.m_flags (s.read buf n).2.2.m_flags ∧
      eof_stays s.m_flags (s.read buf n).2.2.m_flags) ∧
    (∀ (s s1 : pimemstream) (n : Nat),
      (s.seek n = .ok s1 ∨ ∃ msg, s.seek n = .throws msg s1) →
      sticky s.m_flags s1.m_flags) ∧
    (∀ (s s1 : pomemstream) (op : Op),
      (s.apply palloc op = .ok s1 ∨ ∃ msg, s.apply palloc op = .throws msg s1) →
      sticky s.m_flags s1.m_flags ∧ (∀ buf, op = .write buf → eof_stays s.m_flags s1.m_flags)) := by
  refine ⟨?_, ?_, ?_, ?_, ?_, ?_, ?_, ?_, ?_⟩
  · intro s buf n w
    exact pifilestream_vread_flags os s buf n w
  · intro s s1 n w w1 h
    exact pifilestream_seek_flags os s s1 n w w1 h
  · intro s w
    exact ⟨sticky_set_flag _ _, eof_stays_set_flag _ _⟩
  · intro s buf n w
    exact pofilestream_vwrite_flags os s buf n w
  · intro s s1 n w w1 h
    exact pofilestream_seek_flags os s s1 n w w1 h
  · intro s w
    exact ⟨sticky_set_flag _ _, eof_stays_set_flag _ _⟩
  · intro s buf n
    exact pimemstream_vread_flags s buf n
  · intro s s1 n h
    exact pimemstream_seek_flags s s1 n h
  · intro s s1 op h
    have := pomemstream_apply_flags palloc s s1 op h
    exact ⟨this.1, fun _ _ => this.2⟩

/-- C12 on a `pimemstream` with the error, EOF and seekable flags set:
`seek(1)` returns with the EOF flag cleared and the error flag still set. -/
theorem flag_transitions_witness :
    (⟨7, 0, 3, [1, 2, 3]⟩ : pimemstream).seek 1 = .ok ⟨6, 1, 3, [1, 2, 3]⟩ ∧
    sticky 7 6 ∧ 6 &&& FLAG_ERROR ≠ 0 :=
  have h := (flag_transitions disk palloc_zero).2.2.2.2.2.2.2.1
    ⟨7, 0, 3, [1, 2, 3]⟩ ⟨6, 1, 3, [1, 2, 3]⟩ 1 (Or.inl (by decide))
  ⟨by decide, h, h.1 (by decide)⟩

/-! ## Seeking a file stream: C13 -/

theorem int_of_pos_small (n : Nat) (h : n < 2 ^ 31) : int_of_pos n = (n : Int) := by
  unfold int_of_pos UINT_MOD
  have e : n % 2 ^ 32 = n := Nat.mod_eq_of_lt (by omega)
  rw [e, if_pos h]

/-- On the reference system `fseek` with offset 0 and a `whence` of 3 or more
fails and changes nothing but the record of calls. -/
theorem disk_fseek_bad_whence (h : Option Nat) (n : Nat) (w : Disk) (h3 : 3 ≤ n)
    (hn : n < 2 ^ 31) :
    Disk.fseek h SEEK_SET (int_of_pos n) w
      = (-1, { w with calls := w.calls ++ [Call.fseek h SEEK_SET (int_of_pos n)] }) := by
  rw [int_of_pos_small n hn]
  unfold Disk.fseek SEEK_SET SEEK_CUR SEEK_END
  have h0 : ¬ ((n : Int) = 0) := by omega
  have h1 : ¬ ((n : Int) = 1) := by omega
  have h2 : ¬ ((n : Int) = 2) := by omega
  simp only [h0, h1, h2, if_false]

/-- On the reference system, `seek(n)` of a seekable `pifilestream` with
`3 <= n < 2 ^ 31` returns with the error flag set, and neither the position of
the file nor the tracked position has moved. -/
theorem pifilestream_seek_fails (s : pifilestream Nat) (n : Nat) (w : Disk)
    (hs : seekable s.m_flags = true) (h3 : 3 ≤ n) (hn : n < 2 ^ 31) :
    ∃ s1 w1, s.seek disk n w = .ok (s1, w1) ∧ bad s1.m_flags = true ∧
      w1.position = w.position ∧ s1.m_pos = s.m_pos ∧
      w1.calls = w.calls ++ [Call.fseek s.m_file 0 n] := by
  have hcall := disk_fseek_bad_whence s.m_file n w h3 hn
  have hneg : ((-1 : Int) < 0) = True := by simp
  unfold pifilestream.seek pstream.seek
  rw [check_seekable_of_seekable _ hs]
  simp only [pifilestream.vseek, check_seekable_of_seekable _ hs, disk, hcall, hneg, if_true]
  refine ⟨_, _, rfl, ?_, rfl, rfl, ?_⟩
  · have hb : ∀ f, bad f = true → bad (set_flag f FLAG_EOF) = true ∧
        bad (clear_flag f FLAG_EOF) = true ∧ bad (set_flag f FLAG_ERROR) = true := by
      intro f hf
      unfold bad at hf ⊢
      have hf0 : f &&& FLAG_ERROR ≠ 0 := by simpa using hf
      refine ⟨?_, ?_, ?_⟩
      · simpa using (sticky_set_flag f FLAG_EOF).1 hf0
      · simpa using (sticky_clear_eof f).1 hf0
      · simpa using (sticky_set_flag f FLAG_ERROR).1 hf0
    have hb0 : bad (set_flag s.m_flags FLAG_ERROR) = true := by
      unfold bad
      rw [and_set_flag_self]
      rfl
    show bad (if _ then _ else _) = true
    split_ifs <;>
      first
      | exact (hb _ (hb _ hb0).1).2.2
      | exact (hb _ hb0).1
      | exact (hb _ (hb _ hb0).2.1).2.2
      | exact (hb _ hb0).2.1
  · rw [int_of_pos_small n hn]
    rfl

/-- C13 on an eight-byte file opened by a `pifilestream` and on a file to which
a `pofilestream` has written eight bytes, both streams seekable. `seek(5)`
calls `fseek` with offset 0 and `whence` 5: the call fails, the error flag is
set, the position of the file stays where it was (0, and 8 after the write) and
so does `tell()`. `seek(1)` on the input stream calls `fseek` with offset 0 and
`whence` 1, that is `SEEK_CUR`: it succeeds and leaves the position of the file
at 0, where `tell()` returns 0. -/
theorem fseek_gets_offset_as_whence :
    pifilestream.new disk "f" (Disk.file [10, 11, 12, 13, 14, 15, 16, 17])
      = (⟨FLAG_SEEKABLE, some 0, 0⟩, Disk.opened [10, 11, 12, 13, 14, 15, 16, 17]) ∧
    (⟨FLAG_SEEKABLE, some 0, 0⟩ : pifilestream Nat).seek disk 5
        (Disk.opened [10, 11, 12, 13, 14, 15, 16, 17])
      = .ok (⟨FLAG_SEEKABLE ||| FLAG_ERROR, some 0, 0⟩,
          { Disk.opened [10, 11, 12, 13, 14, 15, 16, 17] with
            calls := [Call.fopen "rb", Call.fseek (some 0) 0 SEEK_SET,
                      Call.fseek (some 0) 0 5] }) ∧
    (⟨FLAG_SEEKABLE ||| FLAG_ERROR, some 0, 0⟩ : pifilestream Nat).tell disk
        { Disk.opened [10, 11, 12, 13, 14, 15, 16, 17] with
          calls := [Call.fopen "rb", Call.fseek (some 0) 0 SEEK_SET,
                    Call.fseek (some 0) 0 5] } = 0 ∧
    (⟨FLAG_SEEKABLE, some 0, 0⟩ : pifilestream Nat).seek disk 1
        (Disk.opened [10, 11, 12, 13, 14, 15, 16, 17])
      = .ok (⟨FLAG_SEEKABLE, some 0, 1⟩,
          { Disk.opened [10, 11, 12, 13, 14, 15, 16, 17] with
            calls := [Call.fopen "rb", Call.fseek (some 0) 0 SEEK_SET,
                      Call.fseek (some 0) 0 SEEK_CUR] }) ∧
    (⟨FLAG_SEEKABLE, some 0, 1⟩ : pifilestream Nat).tell disk
        { Disk.opened [10, 11, 12, 13, 14, 15, 16, 17] with
          calls := [Call.fopen "rb", Call.fseek (some 0) 0 SEEK_SET,
                    Call.fseek (some 0) 0 SEEK_CUR] } = 0 ∧
    pofilestream.new disk "f" (Disk.file []) = (⟨FLAG_SEEKABLE, some 0, 0⟩, Disk.created) ∧
    (⟨FLAG_SEEKABLE, some 0, 0⟩ : pofilestream Nat).write disk
        [10, 11, 12, 13, 14, 15, 16, 17] 8 Disk.created
      = (⟨FLAG_SEEKABLE, some 0, 8⟩,
          { Disk.created with
            content := [10, 11, 12, 13, 14, 15, 16, 17], position := 8,
            calls := [Call.fopen "wb", Call.fseek (some 0) 0 SEEK_SET,
                      Call.fwrite (some 0) 8] }) ∧
    (⟨FLAG_SEEKABLE, some 0, 8⟩ : pofilestream Nat).seek disk 5
        { Disk.created with
          content := [10, 11, 12, 13, 14, 15, 16, 17], position := 8,
          calls := [Call.fopen "wb", Call.fseek (some 0) 0 SEEK_SET,
                    Call.fwrite (some 0) 8] }
      = .ok (⟨FLAG_SEEKABLE ||| FLAG_ERROR, some 0, 8⟩,
          { Disk.created with
            content := [10, 11, 12, 13, 14, 15, 16, 17], position := 8,
            calls := [Call.fopen "wb", Call.fseek (some 0) 0 SEEK_SET,
                      Call.fwrite (some 0) 8, Call.fseek (some 0) 0 5] }) ∧
    (⟨FLAG_SEEKABLE ||| FLAG_ERROR, some 0, 8⟩ : pofilestream Nat).tell disk
        { Disk.created with
          content := [10, 11, 12, 13, 14, 15, 16, 17], position := 8,
          calls := [Call.fopen "wb", Call.fseek (some 0) 0 SEEK_SET,
                    Call.fwrite (some 0) 8, Call.fseek (some 0) 0 5] } = 8 := by
  refine ⟨by rfl, by rfl, by rfl, by rfl, by rfl, by rfl, by rfl, by rfl, by rfl⟩

/-! ## A file stream whose open failed, and closing: C14, C15 -/

/-- C14 on a path that cannot be opened: the `pofilestream` is constructed with
the error and closed flags set and the seekable flag clear, and `write(buf, 1)`
then calls `fwrite` on the null handle. On every C library, `write` on a stream
hands its handle to `fwrite`, null or not. -/
theorem write_reaches_fwrite_on_null :
    pofilestream.new disk "f" Disk.missing
      = (⟨FLAG_ERROR ||| FLAG_CLOSED, none, 0⟩,
          { Disk.missing with calls := [Call.fopen "wb"] }) ∧
    bad (FLAG_ERROR ||| FLAG_CLOSED) = true ∧ closed (FLAG_ERROR ||| FLAG_CLOSED) = true ∧
    seekable (FLAG_ERROR ||| FLAG_CLOSED) = false ∧
    ((⟨FLAG_ERROR ||| FLAG_CLOSED, none, 0⟩ : pofilestream Nat).write disk [97] 1
        { Disk.missing with calls := [Call.fopen "wb"] }).2.calls
      = [Call.fopen "wb", Call.fwrite none 1] ∧
    ∀ (H W : Type) (os : CLib H W) (s : pofilestream H) (buf : List UInt8) (n : Nat) (w : W),
      (s.write os buf n w).2 = (os.fwrite s.m_file buf n w).2 := by
  refine ⟨by rfl, by rfl, by rfl, by rfl, by rfl, ?_⟩
  intro H W os s buf n w
  rfl

/-- C15 on the reference system. A `pifilestream` on a file that opened,
closed twice by `close()` and then destroyed (the destructor finds the closed
flag set and makes no call), has called `fclose` twice on its handle; two
`close()` calls on a `pofilestream` do the same. On a stream whose open failed,
`close()` calls `fclose` on the null handle. On every C library `close()` hands
the handle to `fclose` and leaves the closed flag set. -/
theorem close_twice_calls_fclose_twice :
    ((pifilestream.close disk ⟨FLAG_SEEKABLE, some 0, 0⟩ (Disk.opened [1, 2, 3])).1.close disk
        (pifilestream.close disk ⟨FLAG_SEEKABLE, some 0, 0⟩ (Disk.opened [1, 2, 3])).2)
      = (⟨FLAG_SEEKABLE ||| FLAG_CLOSED, some 0, 0⟩,
          { Disk.opened [1, 2, 3] with
            is_open := false,
            calls := [Call.fopen "rb", Call.fseek (some 0) 0 SEEK_SET,
                      Call.fclose (some 0), Call.fclose (some 0)] }) ∧
    ((⟨FLAG_SEEKABLE ||| FLAG_CLOSED, some 0, 0⟩ : pifilestream Nat).destroy disk
        { Disk.opened [1, 2, 3] with
          is_open := false,
          calls := [Call.fopen "rb", Call.fseek (some 0) 0 SEEK_SET,
                    Call.fclose (some 0), Call.fclose (some 0)] }).2.calls
      = [Call.fopen "rb", Call.fseek (some 0) 0 SEEK_SET,
         Call.fclose (some 0), Call.fclose (some 0)] ∧
    count_fclose [Call.fopen "rb", Call.fseek (some 0) 0 SEEK_SET,
         Call.fclose (some 0), Call.fclose (some 0)] = 2 ∧
    count_fclose
      ((pofilestream.close disk ⟨FLAG_SEEKABLE, some 0, 0⟩ Disk.created).1.close disk
        (pofilestream.close disk ⟨FLAG_SEEKABLE, some 0, 0⟩ Disk.created).2).2.calls = 2 ∧
    pifilestream.new disk "f" Disk.missing
      = (⟨FLAG_ERROR ||| FLAG_EOF ||| FLAG_CLOSED, none, 0⟩,
          { Disk.missing with calls := [Call.fopen "rb"] }) ∧
    ((⟨FLAG_ERROR ||| FLAG_EOF ||| FLAG_CLOSED, none, 0⟩ : pifilestream Nat).close disk
        { Disk.missing with calls := [Call.fopen "rb"] }).2.calls
      = [Call.fopen "rb", Call.fclose none] ∧
    (∀ (H W : Type) (os : CLib H W) (s : pifilestream H) (w : W),
      closed (s.close os w).1.m_flags = true ∧
      (s.close os w).2 = os.fclose s.m_file w) ∧
    (∀ (H W : Type) (os : CLib H W) (s : pofilestream H) (w : W),
      closed (s.close os w).1.m_flags = true ∧
      (s.close os w).2 = os.fclose s.m_file w) := by
  have hc : ∀ f, closed (set_flag f FLAG_CLOSED) = true := by
    intro f
    unfold closed
    rw [and_set_flag_self]
    rfl
  refine ⟨by rfl, by rfl, by rfl, by rfl, by rfl, by rfl, ?_, ?_⟩
  · intro H W os s w
    exact ⟨hc _, rfl⟩
  · intro H W os s w
    exact ⟨hc _, rfl⟩

/-! ## The growth rule of `vwrite`: C16 -/

/-- From a capacity `1024 * 2 ^ i` the doubling loop exits on `c * 2 ^ k` for the
least `k` that puts it above the target. -/
theorem grow_capacity_least :
    ∀ (fuel target c c1 : Nat), doubled_capacity c → grow_capacity fuel target c = some c1 →
      ∃ k, c1 = c * 2 ^ k ∧ target < c * 2 ^ k ∧ ∀ j, j < k → c * 2 ^ j ≤ target := by
  intro fuel
  induction fuel with
  | zero => intro target c c1 _ h; simp [grow_capacity] at h
  | succ fuel ih =>
    intro target c c1 hc h
    unfold grow_capacity at h
    by_cases ht : target ≥ c
    · rw [if_pos ht] at h
      rcases doubled_capacity_step c hc with ⟨_, hmod, hd⟩ | ⟨_, hmod⟩
      · rw [hmod] at h
        obtain ⟨k, hk1, hk2, hk3⟩ := ih _ _ _ hd h
        refine ⟨k + 1, ?_, ?_, ?_⟩
        · rw [hk1, Nat.pow_succ']
          ring
        · rw [Nat.pow_succ']
          calc target < c * 2 * 2 ^ k := hk2
            _ = c * (2 * 2 ^ k) := by ring
        · intro j hj
          cases j with
          | zero => simpa using ht
          | succ j =>
            have := hk3 j (by omega)
            rw [Nat.pow_succ']
            calc c * (2 * 2 ^ j) = c * 2 * 2 ^ j := by ring
              _ ≤ target := this
      · rw [hmod, grow_capacity_zero] at h
        simp at h
    · rw [if_neg ht] at h
      have : c = c1 := by simpa using h
      subst this
      exact ⟨0, by simp, by simpa using ht, fun j hj => by omega⟩

/-- Every state reached from a fresh stream has `m_pos <= m_size <= m_capacity`
and a capacity `1024 * 2 ^ k`, whatever the allocator does. -/
theorem run_fields (palloc : Nat → Option (List UInt8)) :
    ∀ (ops : List Op) (s s1 : pomemstream),
      s.m_pos ≤ s.m_size ∧ s.m_size ≤ s.m_capacity → doubled_capacity s.m_capacity →
      pomemstream.run palloc ops s = .ok s1 →
      (s1.m_pos ≤ s1.m_size ∧ s1.m_size ≤ s1.m_capacity) ∧ doubled_capacity s1.m_capacity := by
  intro ops
  induction ops with
  | nil =>
    intro s s1 hinv hd h
    have : s = s1 := by simpa [pomemstream.run] using h
    subst this
    exact ⟨hinv, hd⟩
  | cons op ops ih =>
    intro s s1 hinv hd h
    obtain ⟨s0, ha, hr⟩ := run_cons_inv palloc op ops s s1 h
    have h0 := apply_ok_fields palloc s s0 op ha
    exact ih s0 s1 (h0.1 hinv) (h0.2 hd).1 hr

theorem reached_fields (palloc : Nat → Option (List UInt8)) (ops : List Op) (s : pomemstream)
    (h : pomemstream.run palloc ops (pomemstream.new palloc) = .ok s) :
    (s.m_pos ≤ s.m_size ∧ s.m_size ≤ s.m_capacity) ∧ doubled_capacity s.m_capacity :=
  run_fields palloc ops _ s ⟨Nat.le_refl _, by show 0 ≤ 1024; omega⟩ ⟨0, by decide, rfl⟩ h

/-- C16: in every state reached from a fresh stream, with position `p` and
capacity `c`, a `write(buf, n)` that returns leaves the capacity `c * 2 ^ k` for
the least `k` with `p + n < c * 2 ^ k`; the capacity is unchanged exactly when
`p + n < c`, and it is doubled when `p + n = c`. -/
theorem growth_rule (palloc : Nat → Option (List UInt8)) (ops : List Op)
    (s s1 : pomemstream) (buf : List UInt8)
    (hreach : pomemstream.run palloc ops (pomemstream.new palloc) = .ok s)
    (hn : buf.length < UINT_MOD)
    (hw : s.write palloc buf buf.length = .ok s1) :
    (∃ k, s1.m_capacity = s.m_capacity * 2 ^ k ∧
      s.m_pos + buf.length < s.m_capacity * 2 ^ k ∧
      ∀ j, j < k → s.m_capacity * 2 ^ j ≤ s.m_pos + buf.length) ∧
    (s1.m_capacity = s.m_capacity ↔ s.m_pos + buf.length < s.m_capacity) ∧
    (s.m_pos + buf.length = s.m_capacity → s1.m_capacity = s.m_capacity * 2) := by
  obtain ⟨⟨hps, hsc⟩, hd⟩ := reached_fields palloc ops s hreach
  have hc63 := doubled_capacity_lt _ hd
  have ht : (s.m_pos + buf.length) % POS_MOD = s.m_pos + buf.length := by
    unfold POS_MOD UINT_MOD at *
    omega
  have hf := (vwrite_ok_fields palloc s s1 buf buf.length hw).1
  rw [ht] at hf
  by_cases hg : s.m_pos + buf.length ≥ s.m_capacity
  · rw [if_pos hg] at hf
    obtain ⟨k, hk1, hk2, hk3⟩ := grow_capacity_least _ _ _ _ hd hf
    have hk0 : k ≠ 0 := by
      intro h0
      subst h0
      simp at hk2
      omega
    have hgt : s.m_capacity < s1.m_capacity := by
      have := grow_capacity_exit _ _ _ _ hf
      omega
    refine ⟨⟨k, hk1, hk2, hk3⟩, ⟨fun h => by omega, fun h => by omega⟩, fun he => ?_⟩
    have hk1' : k = 1 := by
      by_contra hne
      have := hk3 1 (by omega)
      simp at this
      omega
    rw [hk1, hk1']
    simp
  · rw [if_neg hg] at hf
    refine ⟨⟨0, by simpa using hf, by simpa using hg, fun j hj => by omega⟩,
      ⟨fun _ => by omega, fun _ => hf⟩, fun he => by omega⟩

/-- C16 on a fresh stream: a write of 1024 bytes returns, makes `p + n` equal to
the capacity 1024 and leaves the capacity 2048. -/
theorem growth_rule_witness :
    ∃ s1, (pomemstream.new palloc_zero).write palloc_zero (List.replicate 1024 5)
        (List.replicate 1024 (5 : UInt8)).length = .ok s1 ∧
      s1.m_capacity = 1024 * 2 := by
  have hl : (List.replicate 1024 (5 : UInt8)).length = 1024 := List.length_replicate _ _
  obtain ⟨s1, h1⟩ := write_returns palloc_zero never_fails_zero (pomemstream.new palloc_zero)
    (List.replicate 1024 5) (sound_new palloc_zero never_fails_zero)
    (by rw [hl]; show 0 + 1024 < 2 ^ 63; norm_num)
  have h := growth_rule palloc_zero [] (pomemstream.new palloc_zero) s1
    (List.replicate 1024 5) rfl (by rw [hl]; decide) h1
  exact ⟨s1, h1, h.2.2 (by rw [hl]; rfl)⟩

/-! ## The copy on growth: C17 -/

/-- The block after a `vseek` that grew: the new block with `vseek_copy_count`
bytes requested from the old one. -/
theorem vseek_grown_block (palloc : Nat → Option (List UInt8)) (s s1 : pomemstream)
    (n c : Nat) (o : List UInt8) (h : s.vseek palloc n = .ok s1) (ho : s.m_mem = some o)
    (hc : s.vseek_copy_count n = some c) :
    c = n ∧ (s1.m_mem = none ∨
      ∃ block, palloc s1.m_capacity = some block ∧ s1.m_mem = some (memcpy block 0 o c)) := by
  unfold pomemstream.vseek_copy_count at hc
  by_cases hg : max n s.m_size ≥ s.m_capacity
  · rw [if_pos hg] at hc
    have e : n = c := by simpa using hc
    subst e
    refine ⟨rfl, ?_⟩
    simp only [pomemstream.vseek] at h
    rw [if_pos hg, ho] at h
    cases hgc : grow_capacity GROW_FUEL (max n s.m_size) s.m_capacity with
    | none => simp [hgc] at h
    | some c1 =>
      cases hb : palloc c1 with
      | none =>
        simp only [hgc, hb, Outcome.ok.injEq] at h
        subst h
        exact Or.inl rfl
      | some block =>
        simp only [hgc, hb] at h
        by_cases hno : n ≤ o.length
        · rw [if_pos hno] at h
          simp only [Outcome.ok.injEq] at h
          subst h
          exact Or.inr ⟨block, hb, rfl⟩
        · rw [if_neg hno] at h
          cases h
  · rw [if_neg hg] at hc
    simp at hc

/-- The block before the write of the bytes, after a `vwrite` that grew: the new
block with `vwrite_copy_count` bytes requested from the old one. -/
theorem vwrite_grown_block (palloc : Nat → Option (List UInt8)) (s s1 : pomemstream)
    (buf : List UInt8) (n c : Nat) (o : List UInt8) (h : s.vwrite palloc buf n = .ok s1)
    (ho : s.m_mem = some o) (hc : s.vwrite_copy_count n = some c) :
    c = s.m_pos ∧ (s1.m_mem = none ∨
      ∃ block, palloc s1.m_capacity = some block ∧
        s1.m_mem = some (memcpy (memcpy block 0 o c) s.m_pos buf n)) := by
  unfold pomemstream.vwrite_copy_count at hc
  by_cases hg : (s.m_pos + n) % POS_MOD ≥ s.m_capacity
  · rw [if_pos hg] at hc
    have e : s.m_pos = c := by simpa using hc
    subst e
    refine ⟨rfl, ?_⟩
    unfold pomemstream.vwrite at h
    rw [if_pos hg, ho] at h
    cases hgc : grow_capacity GROW_FUEL ((s.m_pos + n) % POS_MOD) s.m_capacity with
    | none => simp [hgc] at h
    | some c1 =>
      cases hb : palloc c1 with
      | none =>
        simp only [hgc, hb, Outcome.ok.injEq] at h
        subst h
        exact Or.inl rfl
      | some block =>
        simp only [hgc, hb, Outcome.ok.injEq] at h
        subst h
        exact Or.inr ⟨block, hb, rfl⟩
  · rw [if_neg hg] at hc
    simp at hc

/-- When `vseek(n)` grows a stream with `m_size < m_capacity`, the count of its
copy is `n`, which is at least the capacity of the old block and above the
position held before the call. -/
theorem vseek_copy_count_ge (s : pomemstream) (n c : Nat) (hps : s.m_pos ≤ s.m_size)
    (hsc : s.m_size < s.m_capacity) (hc : s.vseek_copy_count n = some c) :
    c = n ∧ s.m_capacity ≤ c ∧ s.m_pos < c := by
  unfold pomemstream.vseek_copy_count at hc
  by_cases hg : max n s.m_size ≥ s.m_capacity
  · rw [if_pos hg] at hc
    have e : n = c := by simpa using hc
    subst e
    exact ⟨rfl, by omega, by omega⟩
  · rw [if_neg hg] at hc
    simp at hc

/-- C17 on a fresh stream, position 0 and a block of 1024 bytes: `seek(2000)`
enters the growing branch and its copy requests 2000 bytes from the old block,
not 0, which is more than the block has, so the call reads past its end.
For `vwrite` the count is the position before the call whenever it grows. -/
theorem vseek_copies_new_position :
    (pomemstream.new palloc_zero).m_pos = 0 ∧
    (pomemstream.new palloc_zero).m_capacity = 1024 ∧
    (pomemstream.new palloc_zero).m_mem = some (List.replicate 1024 0) ∧
    (List.replicate 1024 (0 : UInt8)).length = 1024 ∧
    (pomemstream.new palloc_zero).vseek_copy_count 2000 = some 2000 ∧
    (pomemstream.new palloc_zero).seek palloc_zero 2000 = .undefined ∧
    (∀ (s : pomemstream) (n : Nat),
      s.vwrite_copy_count n = none ∨ s.vwrite_copy_count n = some s.m_pos) ∧
    (∀ (s : pomemstream) (n : Nat),
      s.vseek_copy_count n = none ∨ s.vseek_copy_count n = some n) := by
  refine ⟨rfl, rfl, rfl, List.length_replicate _ _, by decide,
    seek_past_capacity palloc_zero never_fails_zero _ 2000
      (sound_new palloc_zero never_fails_zero) (by show 1024 < 2000; decide) (by norm_num),
    ?_, ?_⟩
  · intro s n
    unfold pomemstream.vwrite_copy_count
    split_ifs
    · exact Or.inr rfl
    · exact Or.inl rfl
  · intro s n
    unfold pomemstream.vseek_copy_count
    split_ifs
    · exact Or.inr rfl
    · exact Or.inl rfl

/-! ## Seeking a `pomemstream`: C18 -/

/-- The loop exits on the capacity doubled some number of times, on 64 bits. -/
theorem grow_capacity_pow :
    ∀ (fuel target c c1 : Nat), c < POS_MOD → grow_capacity fuel target c = some c1 →
      ∃ k, c1 = c * 2 ^ k % POS_MOD := by
  intro fuel
  induction fuel with
  | zero => intro target c c1 _ h; simp [grow_capacity] at h
  | succ fuel ih =>
    intro target c c1 hc h
    unfold grow_capacity at h
    have hM : 0 < POS_MOD := by unfold POS_MOD; norm_num
    by_cases ht : target ≥ c
    · rw [if_pos ht] at h
      obtain ⟨k, hk⟩ := ih _ _ _ (Nat.mod_lt _ hM) h
      refine ⟨k + 1, ?_⟩
      rw [hk, Nat.mod_mul_mod, Nat.pow_succ', Nat.mul_assoc]
    · rw [if_neg ht] at h
      have : c = c1 := by simpa using h
      subst this
      exact ⟨0, by rw [Nat.pow_zero, Nat.mul_one, Nat.mod_eq_of_lt hc]⟩

/-- What a `seek(n)` that returns does, on any state: the position is `n`, the
size is the larger of `n` and the old size, `size()` is that size modulo
`2 ^ 32`, and the capacity changes, by doubling on 64 bits, exactly when the
new size reaches the old capacity. -/
theorem seek_ok_rule (palloc : Nat → Option (List UInt8)) (s s1 : pomemstream) (n : Nat)
    (hcap : s.m_capacity < POS_MOD) (h : s.seek palloc n = .ok s1) :
    s1.m_pos = n ∧ s1.tell = n ∧ s1.m_size = max n s.m_size ∧
    s1.size = max n s.m_size % UINT_MOD ∧
    (s1.m_capacity ≠ s.m_capacity ↔ max n s.m_size ≥ s.m_capacity) ∧
    ∃ k, s1.m_capacity = s.m_capacity * 2 ^ k % POS_MOD := by
  obtain ⟨hf, hp, hsz⟩ := vseek_ok_fields palloc s s1 n ((seek_outcome palloc s s1 n).1 h)
  refine ⟨hp, hp, hsz, by unfold pomemstream.size; rw [hsz], ?_, ?_⟩
  · by_cases hg : max n s.m_size ≥ s.m_capacity
    · rw [if_pos hg] at hf
      have := grow_capacity_exit _ _ _ _ hf
      exact ⟨fun _ => hg, fun _ => by omega⟩
    · rw [if_neg hg] at hf
      exact ⟨fun hne => absurd hf hne, fun hge => absurd hge hg⟩
  · by_cases hg : max n s.m_size ≥ s.m_capacity
    · rw [if_pos hg] at hf
      exact grow_capacity_pow _ _ _ _ hcap hf
    · rw [if_neg hg] at hf
      exact ⟨0, by rw [hf, Nat.pow_zero, Nat.mul_one, Nat.mod_eq_of_lt hcap]⟩

/-- A write of `2 ^ 31` bytes on a fresh stream followed by `seek(2 ^ 32)`: both
return; before the seek `size()` is `2 ^ 31` and the capacity `2 ^ 32`; the seek
copies `2 ^ 32` bytes, leaves position and `m_size` at `2 ^ 32`, and `size()`
at 0. -/
theorem seek_to_4G (palloc : Nat → Option (List UInt8)) (hp : never_fails palloc)
    (z : List UInt8) (hz : z.length = 2 ^ 31) :
    ∃ s s1, pomemstream.run palloc [.write z] (pomemstream.new palloc) = .ok s ∧
      s.m_size = 2 ^ 31 ∧ s.size = 2 ^ 31 ∧ s.m_capacity = 2 ^ 32 ∧
      s.vseek_copy_count (2 ^ 32) = some (2 ^ 32) ∧
      s.seek palloc (2 ^ 32) = .ok s1 ∧
      s1.tell = 2 ^ 32 ∧ s1.m_size = 2 ^ 32 ∧ s1.size = 0 := by
  have hzt : z.length < UINT_MOD := by unfold UINT_MOD; omega
  have hty : ∀ op ∈ [Op.write z], op.typed := by
    intro op hop
    have : op = Op.write z := by simpa using hop
    subst this
    exact hzt
  obtain ⟨s, hs⟩ := run_returns palloc hp [.write z] _ (sound_new palloc hp) hty
    ⟨by show 0 + z.length < 2 ^ 63; omega, trivial⟩
  obtain ⟨s0, ha, hr⟩ := run_cons_inv palloc _ _ _ _ hs
  have e0 : s0 = s := by simpa [pomemstream.run] using hr
  subst e0
  have hw : (pomemstream.new palloc).write palloc z z.length = .ok s0 := ha
  obtain ⟨hsound, hpos, hsize, _⟩ := write_sound palloc hp _ s0 z (sound_new palloc hp) hzt hw
  have hp0 : (pomemstream.new palloc).m_pos = 0 := rfl
  have hs0 : (pomemstream.new palloc).m_size = 0 := rfl
  have hc0 : (pomemstream.new palloc).m_capacity = 1024 := rfl
  rw [hp0, hz] at hpos hsize
  rw [hs0] at hsize
  have hsz : s0.m_size = 2 ^ 31 := by rw [hsize]; norm_num
  have hcap : s0.m_capacity = 2 ^ 32 := by
    have hf := (vwrite_ok_fields palloc _ s0 z z.length hw).1
    rw [hp0, hc0, hz] at hf
    have hg : grow_capacity GROW_FUEL ((0 + 2 ^ 31) % POS_MOD) 1024 = some (2 ^ 32) := by decide
    rw [if_pos (by decide), hg] at hf
    exact (Option.some.inj hf).symm
  obtain ⟨s1, h1⟩ := seek_returns palloc hp s0 (2 ^ 32) hsound (by rw [hcap]) (by norm_num)
  obtain ⟨_, hp1, hsz1, _⟩ := seek_sound palloc hp s0 s1 (2 ^ 32) hsound h1
  have hsz1' : s1.m_size = 2 ^ 32 := by rw [hsz1, hsz]; norm_num
  refine ⟨s0, s1, hs, hsz, ?_, hcap, ?_, h1, hp1, hsz1', ?_⟩
  · unfold pomemstream.size UINT_MOD
    rw [hsz]
    norm_num
  · unfold pomemstream.vseek_copy_count
    rw [if_pos (by rw [hsz, hcap]; norm_num)]
  · unfold pomemstream.size UINT_MOD
    rw [hsz1']
    norm_num

/-- C18 at a write of `2 ^ 31` bytes on a fresh stream followed by
`seek(2 ^ 32)`: the seek goes past the current size and returns with `tell()`
and `m_size` equal to `2 ^ 32`, but `size()`, which was `2 ^ 31`, is 0 after
it. -/
theorem seek_past_4G_resets_size :
    ∃ s s1, pomemstream.run palloc_zero [.write (List.replicate (2 ^ 31) 0)]
        (pomemstream.new palloc_zero) = .ok s ∧
      s.seek palloc_zero (2 ^ 32) = .ok s1 ∧
      s.m_size < 2 ^ 32 ∧ s.size = 2 ^ 31 ∧
      s1.tell = 2 ^ 32 ∧ s1.m_size = 2 ^ 32 ∧ s1.size = 0 ∧ s1.size < s.size := by
  obtain ⟨s, s1, hs, hsz, hsize, _, _, h1, htell, hsz1, hsize1⟩ :=
    seek_to_4G palloc_zero never_fails_zero (List.replicate (2 ^ 31) 0)
      (List.length_replicate _ _)
  refine ⟨s, s1, hs, h1, by rw [hsz]; norm_num, hsize, htell, hsz1, hsize1, ?_⟩
  rw [hsize1, hsize]
  norm_num

/-! ## Carriage returns in a line: C19 -/

/-- The loop of `readline` on any input stream, entered with the byte `c` and
with `ys` and an LF still to come: it returns the bytes without their carriage
returns. -/
theorem readline_loop_delivered {σ : Type}
    (vread : σ → List UInt8 → Nat → Nat × List UInt8 × σ) :
    ∀ (ys : List UInt8) (c : UInt8) (s0 s1 : σ) (buf : List UInt8) (fuel : Nat),
      (∀ y ∈ c :: ys, y ≠ 10) → delivers vread s0 (ys ++ [10]) s1 → ys.length + 1 < fuel →
      pistream.readline_loop vread fuel s0 c buf
        = some (buf ++ (c :: ys).filter (fun b => decide (b ≠ 13)), s1) := by
  intro ys
  induction ys with
  | nil =>
    intro c s0 s1 buf fuel hc hd hfuel
    obtain ⟨fuel, rfl⟩ : ∃ k, fuel = k + 2 := ⟨fuel - 2, by simp at hfuel; omega⟩
    have hc10 : c ≠ 10 := hc c (List.mem_cons_self _ _)
    obtain ⟨s', hr, he⟩ := hd
    have he' : s' = s1 := he
    subst he'
    simp only [pistream.readline_loop, if_neg hc10, hr c, if_true]
    by_cases h13 : c = 13
    · simp [h13]
    · simp [h13, List.filter_cons]
  | cons y ys ih =>
    intro c s0 s1 buf fuel hc hd hfuel
    obtain ⟨fuel, rfl⟩ : ∃ k, fuel = k + 1 := ⟨fuel - 1, by omega⟩
    have hc10 : c ≠ 10 := hc c (List.mem_cons_self _ _)
    obtain ⟨s', hr, hd'⟩ := hd
    have hrec := ih y s' s1 (if c ≠ 13 then buf ++ [c] else buf) fuel
      (fun z hz => hc z (List.mem_cons_of_mem _ hz)) hd' (by simp at hfuel; omega)
    simp only [pistream.readline_loop, if_neg hc10, hr c, hrec]
    by_cases h13 : c = 13
    · simp [h13]
    · simp [h13, List.filter_cons]

/-- A `pimemstream` delivers the bytes of its region that follow its position. -/
theorem pimemstream_delivers (f : Nat) (rest : List UInt8) :
    ∀ (ys pre mem : List UInt8), mem = pre ++ ys ++ rest →
      mem.length + UINT_MOD ≤ POS_MOD →
      delivers pimemstream.vread ⟨f, pre.length, mem.length, mem⟩ ys
        ⟨f, pre.length + ys.length, mem.length, mem⟩ := by
  intro ys
  induction ys with
  | nil =>
    intro pre mem _ _
    show _ = _
    simp
  | cons y ys ih =>
    intro pre mem hmem hlen
    have hmem2 : mem = (pre ++ [y]) ++ ys ++ rest := by simp [hmem]
    have hlt : pre.length < mem.length := by rw [hmem]; simp
    have hx : mem[pre.length]? = some y := by
      rw [hmem, List.append_assoc, List.getElem?_append_right (Nat.le_refl _)]
      simp
    have hrec := ih (pre ++ [y]) mem hmem2 hlen
    simp only [List.length_append, List.length_singleton] at hrec
    refine ⟨⟨f, pre.length + 1, mem.length, mem⟩, fun c => ?_, ?_⟩
    · exact read_byte_at ⟨f, pre.length, mem.length, mem⟩ c y hlt hlen hx
    · have e : pre.length + (y :: ys).length = pre.length + 1 + ys.length := by
        simp; omega
      rw [e]
      exact hrec

/-- C19 fails on the text `a CR b LF`: `readline` returns `a b`, where the line
with only the carriage returns in front of the LF removed is `a CR b`. -/
theorem lone_cr_is_dropped :
    (pimemstream.new [97, 13, 98, 10] 4).readline 4
      = some (true, [97, 98], ⟨FLAG_SEEKABLE, 4, 4, [97, 13, 98, 10]⟩) ∧
    line_without_final_cr [97, 13, 98] = [97, 13, 98] ∧
    ([97, 98] : List UInt8) ≠ line_without_final_cr [97, 13, 98] := by
  refine ⟨by decide, by decide, by decide⟩

theorem split_final_cr (ys : List UInt8) :
    ∃ crs, ys = line_without_final_cr ys ++ crs ∧ ∀ b ∈ crs, b = 13 := by
  refine ⟨(ys.reverse.takeWhile (fun b => b == 13)).reverse, ?_, ?_⟩
  · unfold line_without_final_cr
    rw [← List.reverse_append, List.takeWhile_append_dropWhile, List.reverse_reverse]
  · intro b hb
    rw [List.mem_reverse] at hb
    simpa using (List.mem_takeWhile_imp hb)

/-- C19 as amended: when an input stream of any class delivers bytes `ys`
without LF and then an LF, `readline` returns true with `ys` without any of its
carriage returns and leaves the stream behind the LF; the line holds no
carriage return, and it is the line with only the final carriage returns
removed when `ys` has no other. -/
theorem readline_drops_every_cr {σ : Type}
    (vread : σ → List UInt8 → Nat → Nat × List UInt8 × σ) (s s1 : σ) (ys : List UInt8)
    (fuel : Nat) (hys : ∀ y ∈ ys, y ≠ 10) (hd : delivers vread s (ys ++ [10]) s1)
    (hfuel : ys.length < fuel) :
    pistream.readline vread fuel s
      = some (true, ys.filter (fun b => decide (b ≠ 13)), s1) ∧
    (13 : UInt8) ∉ ys.filter (fun b => decide (b ≠ 13)) ∧
    ((∀ b ∈ line_without_final_cr ys, b ≠ 13) →
      ys.filter (fun b => decide (b ≠ 13)) = line_without_final_cr ys) := by
  refine ⟨?_, ?_, ?_⟩
  · cases ys with
    | nil =>
      obtain ⟨fuel, rfl⟩ : ∃ k, fuel = k + 1 := ⟨fuel - 1, by simp at hfuel; omega⟩
      obtain ⟨s', hr, he⟩ := hd
      have he' : s' = s1 := he
      subst he'
      simp [pistream.readline, hr 0, pistream.readline_loop]
    | cons c ys =>
      obtain ⟨s', hr, hd'⟩ := hd
      have hloop := readline_loop_delivered vread ys c s' s1 [] fuel hys hd'
        (by simp at hfuel; omega)
      simp only [pistream.readline, hr 0, hloop, List.nil_append]
  · intro h
    have := (List.mem_filter.1 h).2
    simp at this
  · intro hno
    obtain ⟨crs, hsplit, hcrs⟩ := split_final_cr ys
    have h1 : (line_without_final_cr ys).filter (fun b => decide (b ≠ 13))
        = line_without_final_cr ys := by
      rw [List.filter_eq_self]
      intro b hb
      simpa using hno b hb
    have h2 : crs.filter (fun b => decide (b ≠ 13)) = [] := by
      rw [List.filter_eq_nil_iff]
      intro b hb
      simpa using hcrs b hb
    conv_lhs => rw [hsplit]
    rw [List.filter_append, h1, h2, List.append_nil]

/-- C19 as amended, on a `pimemstream` over the text `a CR b CR LF c`: the first
line is `a b`; and on the line `a CR` in front of an LF, where the only carriage
return is the final one, the line returned is the line of the specification. -/
theorem readline_drops_every_cr_witness :
    pistream.readline pimemstream.vread 5 ⟨FLAG_SEEKABLE, 0, 6, [97, 13, 98, 13, 10, 99]⟩
      = some (true, [97, 98], ⟨FLAG_SEEKABLE, 5, 6, [97, 13, 98, 13, 10, 99]⟩) ∧
    ([97, 13] : List UInt8).filter (fun b => decide (b ≠ 13))
      = line_without_final_cr [97, 13] :=
  ⟨(readline_drops_every_cr pimemstream.vread ⟨FLAG_SEEKABLE, 0, 6, [97, 13, 98, 13, 10, 99]⟩
      ⟨FLAG_SEEKABLE, 5, 6, [97, 13, 98, 13, 10, 99]⟩ [97, 13, 98, 13] 5 (by decide)
      (pimemstream_delivers FLAG_SEEKABLE [99] [97, 13, 98, 13, 10] []
        [97, 13, 98, 13, 10, 99] rfl (by decide))
      (by decide)).1,
   (readline_drops_every_cr pimemstream.vread ⟨FLAG_SEEKABLE, 0, 3, [97, 13, 10]⟩
      ⟨FLAG_SEEKABLE, 3, 3, [97, 13, 10]⟩ [97, 13] 3 (by decide)
      (pimemstream_delivers FLAG_SEEKABLE [] [97, 13, 10] [] [97, 13, 10] rfl (by decide))
      (by decide)).2.2 (by decide)⟩

/-! ## Termination of the doubling loops: C20 -/

/-- With a target of `2 ^ 63` or more, the doubling loop started on a capacity
`1024 * 2 ^ k`, or on 0, has not exited after any number of tests. -/
theorem grow_capacity_never :
    ∀ (fuel target c : Nat), doubled_capacity c ∨ c = 0 → 2 ^ 63 ≤ target →
      grow_capacity fuel target c = none := by
  intro fuel
  induction fuel with
  | zero => intro target c _ _; rfl
  | succ fuel ih =>
    intro target c hc ht
    rcases hc with hc | hc
    · have hle := (doubled_capacity_lt c hc).1
      unfold grow_capacity
      rw [if_pos (by omega)]
      rcases doubled_capacity_step c hc with ⟨_, hmod, hd⟩ | ⟨_, hmod⟩
      · rw [hmod]
        exact ih _ _ (Or.inl hd) ht
      · rw [hmod]
        exact grow_capacity_zero _ _
    · subst hc
      exact grow_capacity_zero _ _

/-- A `vwrite` whose doubling loop does not exit does not return. -/
theorem vwrite_diverges (palloc : Nat → Option (List UInt8)) (s : pomemstream)
    (buf : List UInt8) (n : Nat) (hg : (s.m_pos + n) % POS_MOD ≥ s.m_capacity)
    (hnone : grow_capacity GROW_FUEL ((s.m_pos + n) % POS_MOD) s.m_capacity = none) :
    s.vwrite palloc buf n = .diverges := by
  unfold pomemstream.vwrite
  rw [if_pos hg, hnone]

/-- A `seek` on a seekable stream whose doubling loop does not exit does not
return. -/
theorem seek_diverges (palloc : Nat → Option (List UInt8)) (s : pomemstream) (n : Nat)
    (hs : seekable s.m_flags = true) (hg : max n s.m_size ≥ s.m_capacity)
    (hnone : grow_capacity GROW_FUEL (max n s.m_size) s.m_capacity = none) :
    s.seek palloc n = .diverges := by
  unfold pomemstream.seek pstream.seek
  rw [check_seekable_of_seekable _ hs]
  simp only [pomemstream.vseek]
  rw [if_pos hg, hnone]

/-- On a stream with `m_pos <= m_size < m_capacity` and capacity `1024 * 2 ^ k`,
the loops exit when the target is below `2 ^ 63`, and only then. -/
theorem doubling_exits_iff (s : pomemstream) (target : Nat)
    (hc : doubled_capacity s.m_capacity) :
    (∃ c1, grow_capacity GROW_FUEL target s.m_capacity = some c1) ↔ target < 2 ^ 63 := by
  constructor
  · rintro ⟨c1, h⟩
    by_contra hge
    rw [grow_capacity_never _ _ _ (Or.inl hc) (by omega)] at h
    simp at h
  · intro h
    exact grow_capacity_returns_of_doubled _ _ hc h

/-- C20 at `seek(2 ^ 63)` on a fresh stream, and at a write of one byte at
position `2 ^ 63 - 1` with capacity `2 ^ 63 = 1024 * 2 ^ 53`: the capacity
doubles up to `2 ^ 63`, then to 0 modulo `2 ^ 64`, and the loop condition holds
for ever after; no number of tests leaves the loop and neither call returns. -/
theorem doubling_loop_never_exits :
    (∀ fuel, grow_capacity fuel (max (2 ^ 63) (pomemstream.new palloc_zero).m_size)
        (pomemstream.new palloc_zero).m_capacity = none) ∧
    (pomemstream.new palloc_zero).seek palloc_zero (2 ^ 63) = .diverges ∧
    (2 : Nat) ^ 63 = 1024 * 2 ^ 53 ∧
    (∀ (mem : Option (List UInt8)) (fuel : Nat),
      grow_capacity fuel
        (((⟨FLAG_SEEKABLE, 2 ^ 63 - 1, 2 ^ 63, 2 ^ 63 - 1, mem⟩ : pomemstream).m_pos + 1)
          % POS_MOD)
        (⟨FLAG_SEEKABLE, 2 ^ 63 - 1, 2 ^ 63, 2 ^ 63 - 1, mem⟩ : pomemstream).m_capacity
        = none) ∧
    (∀ (mem : Option (List UInt8)),
      (⟨FLAG_SEEKABLE, 2 ^ 63 - 1, 2 ^ 63, 2 ^ 63 - 1, mem⟩ : pomemstream).vwrite palloc_zero
        [0] 1 = .diverges) := by
  have hnew : doubled_capacity (pomemstream.new palloc_zero).m_capacity := ⟨0, by decide, rfl⟩
  have h63 : doubled_capacity (2 ^ 63) := ⟨53, by decide, by norm_num⟩
  have hmax : max (2 ^ 63) (pomemstream.new palloc_zero).m_size = 2 ^ 63 := by
    show max (2 ^ 63) 0 = 2 ^ 63
    simp
  have ht : (2 ^ 63 - 1 + 1) % POS_MOD = 2 ^ 63 := by unfold POS_MOD; norm_num
  refine ⟨fun fuel => ?_, ?_, by norm_num, fun mem fuel => ?_, fun mem => ?_⟩
  · rw [hmax]
    exact grow_capacity_never _ _ _ (Or.inl hnew) (Nat.le_refl _)
  · apply seek_diverges
    · rfl
    · rw [hmax]
      show 2 ^ 63 ≥ 1024
      norm_num
    · rw [hmax]
      exact grow_capacity_never _ _ _ (Or.inl hnew) (Nat.le_refl _)
  · show grow_capacity fuel ((2 ^ 63 - 1 + 1) % POS_MOD) (2 ^ 63) = none
    rw [ht]
    exact grow_capacity_never _ _ _ (Or.inl h63) (Nat.le_refl _)
  · apply vwrite_diverges
    · show (2 ^ 63 - 1 + 1) % POS_MOD ≥ 2 ^ 63
      rw [ht]
    · show grow_capacity GROW_FUEL ((2 ^ 63 - 1 + 1) % POS_MOD) (2 ^ 63) = none
      rw [ht]
      exact grow_capacity_never _ _ _ (Or.inl h63) (Nat.le_refl _)

end PStream
